import Mathlib

set_option maxRecDepth 2000

/-!
# Verification of the DiverSoku Sudoku engine

Shallow embedding of the pure computation core of the repository
(`part_001`, the array-of-arrays engine; the bitmask engine in `part_000`
is a near-verbatim duplicate).  Boards are modelled as total functions
`Nat → Nat → Nat` (the JS `number[][]`, 0 = empty); candidate grids as
`Nat → Nat → Finset Nat` (the JS `Set[][]`).  `Math.random()` is modelled
by an arbitrary stream `rng : Nat → Nat` together with a counter that is
threaded through every call, so theorems quantified over `rng` hold for
every outcome of the internal shuffles.  `Date.now()` is likewise an
arbitrary stream `clock : Nat → Nat`.  Recursions whose JS counterpart
terminates by a bounded measure (backtracking over at most 81 empty
cells) are given explicit fuel larger than that bound.
-/

namespace Sudoku

/-- A 9×9 board: `number[][]` with 0 denoting an empty cell. -/
abbrev Board := Nat → Nat → Nat

/-- `board[r][c] = v` as a functional update. -/
def setCell (b : Board) (r c v : Nat) : Board :=
  fun r' c' => if r' = r ∧ c' = c then v else b r' c'

@[simp] theorem setCell_same (b : Board) (r c v : Nat) : setCell b r c v r c = v := by
  simp [setCell]

theorem setCell_other (b : Board) (r c v r' c' : Nat) (h : ¬(r' = r ∧ c' = c)) :
    setCell b r c v r' c' = b r' c' := by
  simp [setCell, h]

/-- The all-zero (empty) board created by `generateSolution`. -/
def emptyBoard : Board := fun _ _ => 0

/--
`isValidPlacement(board, row, col, num)` from the source: scans the whole
row, the whole column and the 3×3 box (all 27 cells, including `(row, col)`
itself) and rejects if any of them holds `num`.
-/
def isValidPlacement (b : Board) (row col num : Nat) : Bool :=
  ((List.range 9).all fun c => b row c != num) &&
  ((List.range 9).all fun r => b r col != num) &&
  ((List.range 3).all fun dr => (List.range 3).all fun dc =>
      b (row / 3 * 3 + dr) (col / 3 * 3 + dc) != num)

/-- `findEmptyCell(board)`: first `[row, col]` with `board[row][col] === 0`
in row-major order, or `null`. -/
def findEmptyCell (b : Board) : Option (Nat × Nat) :=
  ((List.range 9).flatMap fun r => (List.range 9).map fun c => (r, c)).find?
    fun p => b p.1 p.2 = 0

/-- Spec notion (glossary): a *peer* of `(r, c)` is any other cell sharing
its row, column, or 3×3 box. -/
def Peer (r c r' c' : Nat) : Prop :=
  ¬(r' = r ∧ c' = c) ∧ (r' = r ∨ c' = c ∨ (r' / 3 = r / 3 ∧ c' / 3 = c / 3))

instance (r c r' c' : Nat) : Decidable (Peer r c r' c') := by
  unfold Peer; infer_instance

/-- All 81 cell coordinates in row-major order. -/
def allCells : List (Nat × Nat) :=
  (List.range 9).flatMap fun r => (List.range 9).map fun c => (r, c)

theorem mem_allCells {p : Nat × Nat} : p ∈ allCells ↔ p.1 < 9 ∧ p.2 < 9 := by
  constructor
  · intro h
    simp only [allCells, List.mem_flatMap, List.mem_map, List.mem_range] at h
    obtain ⟨r, hr, c, hc, rfl⟩ := h
    exact ⟨hr, hc⟩
  · intro ⟨h1, h2⟩
    simp only [allCells, List.mem_flatMap, List.mem_map, List.mem_range]
    exact ⟨p.1, h1, p.2, h2, rfl⟩

/-! ### Randomness, shuffling and the backtracking filler

`Math.random()` is modelled by a stream `rng : Nat → Nat` and a counter
`t`; `Math.floor(Math.random() * (i + 1))` becomes `rng t % (i + 1)`,
which ranges over exactly the values the JS expression can take. -/

/-- The ES6 destructuring swap `[a[i], a[j]] = [a[j], a[i]]`. -/
def listSwap {α : Type} [Inhabited α] (l : List α) (i j : Nat) : List α :=
  (l.set i (l.getD j default)).set j (l.getD i default)

/-- The descending loop of `shuffleArray` (Fisher–Yates): argument `i` is
the current loop index; the loop body runs while `i > 0`. -/
def shuffleSteps {α : Type} [Inhabited α] (rng : Nat → Nat) :
    List α → Nat → Nat → List α × Nat
  | l, 0, t => (l, t)
  | l, i + 1, t => shuffleSteps rng (listSwap l (i + 1) (rng t % (i + 2))) i (t + 1)

/-- `shuffleArray(array)` from the source. -/
def shuffleArray {α : Type} [Inhabited α] (rng : Nat → Nat) (l : List α)
    (t : Nat) : List α × Nat :=
  shuffleSteps rng l (l.length - 1) t

/-- The `for (const num of numbers)` loop body of `fillBoard`: try each
number in order, recursing through `fillRec`; a failed branch leaves the
board as it was (the JS code restores `board[row][col] = 0`). -/
def fillTry (fillRec : Board → Nat → Option Board × Nat) (row col : Nat) :
    List Nat → Board → Nat → Option Board × Nat
  | [], _b, t => (none, t)
  | n :: ns, b, t =>
    if isValidPlacement b row col n then
      match fillRec (setCell b row col n) t with
      | (some res, t') => (some res, t')
      | (none, t') => fillTry fillRec row col ns b t'
    else fillTry fillRec row col ns b t

/-- `fillBoard(board)` from the source: backtracking with a freshly
shuffled digit order at every cell.  The JS recursion terminates because
every recursive call has one fewer empty cell; `fuel` makes that measure
explicit (callers pass 82 > 81 ≥ number of empty cells). -/
def fillBoard (rng : Nat → Nat) : Nat → Board → Nat → Option Board × Nat
  | 0, _b, t => (none, t)
  | fuel + 1, b, t =>
    match findEmptyCell b with
    | none => (some b, t)
    | some (row, col) =>
      let st := shuffleArray rng [1, 2, 3, 4, 5, 6, 7, 8, 9] t
      fillTry (fillBoard rng fuel) row col st.1 b st.2

/-- `generateSolution()` from the source: fill an all-zero board; if
`fillBoard` fails (it cannot, from an empty board) the board is left
all-zero. -/
def generateSolution (rng : Nat → Nat) (t : Nat) : Board × Nat :=
  match fillBoard rng 82 emptyBoard t with
  | (some b, t') => (b, t')
  | (none, t') => (emptyBoard, t')

/-- The `for (let num = 1; num <= 9; num++)` loop of `countSolutions`'
inner `solve()`: the counter is threaded through the branches. -/
def countNums (solveRec : Board → Nat → Nat) (row col : Nat) :
    List Nat → Board → Nat → Nat
  | [], _b, count => count
  | n :: ns, b, count =>
    if isValidPlacement b row col n then
      countNums solveRec row col ns b (solveRec (setCell b row col n) count)
    else countNums solveRec row col ns b count

/-- The inner `solve()` of `countSolutions`: prune once `count >= limit`,
bump the counter at a full board, otherwise branch on the first empty
cell.  Same fuel discipline as `fillBoard`. -/
def solveCount (limit : Nat) : Nat → Board → Nat → Nat
  | 0, _b, count => count
  | fuel + 1, b, count =>
    if limit ≤ count then count
    else
      match findEmptyCell b with
      | none => count + 1
      | some (row, col) =>
        countNums (solveCount limit fuel) row col [1, 2, 3, 4, 5, 6, 7, 8, 9] b count

/-- `countSolutions(board, limit = 2)` from the source. -/
def countSolutions (b : Board) (limit : Nat := 2) : Nat :=
  solveCount limit 82 b 0

/-! ### Characterisations of the primitives -/

/-- What `isValidPlacement` scans, as a proposition: the whole row, the
whole column, and the 3×3 box — 21 cells including `(row, col)` itself. -/
theorem isValidPlacement_true_iff (g : Board) (r c v : Nat) (hr : r < 9) (hc : c < 9) :
    isValidPlacement g r c v = true ↔
      (∀ r' c', r' < 9 → c' < 9 → Peer r c r' c' → g r' c' ≠ v) ∧ g r c ≠ v := by
  simp only [isValidPlacement, Bool.and_eq_true, List.all_eq_true, List.mem_range,
    bne_iff_ne, ne_eq]
  constructor
  · rintro ⟨⟨hrow, hcol⟩, hbox⟩
    refine ⟨?_, hrow c hc⟩
    rintro r' c' hr' hc' ⟨hne, hshare⟩
    rcases hshare with h | h | ⟨hbr, hbc⟩
    · exact h ▸ hrow c' hc'
    · exact h ▸ hcol r' hr'
    · have h1 := hbox (r' % 3) (Nat.mod_lt _ (by omega)) (c' % 3) (Nat.mod_lt _ (by omega))
      have e1 : r / 3 * 3 + r' % 3 = r' := by omega
      have e2 : c / 3 * 3 + c' % 3 = c' := by omega
      rwa [e1, e2] at h1
  · rintro ⟨hpeer, hself⟩
    refine ⟨⟨?_, ?_⟩, ?_⟩
    · intro c' hc'
      by_cases h : c' = c
      · exact h ▸ hself
      · exact hpeer r c' hr hc' ⟨by tauto, Or.inl rfl⟩
    · intro r' hr'
      by_cases h : r' = r
      · exact h ▸ hself
      · exact hpeer r' c hr' hc ⟨by tauto, Or.inr (Or.inl rfl)⟩
    · intro dr hdr dc hdc
      by_cases h : r / 3 * 3 + dr = r ∧ c / 3 * 3 + dc = c
      · rw [h.1, h.2]; exact hself
      · exact hpeer _ _ (by omega) (by omega)
          ⟨h, Or.inr (Or.inr ⟨by omega, by omega⟩)⟩

/-- `findEmptyCell` returns `none` exactly on a full board. -/
theorem findEmptyCell_eq_none_iff (b : Board) :
    findEmptyCell b = none ↔ ∀ r c, r < 9 → c < 9 → b r c ≠ 0 := by
  simp only [findEmptyCell, List.find?_eq_none, decide_eq_true_eq]
  constructor
  · intro h r c hr hc
    exact h (r, c) (mem_allCells.mpr ⟨hr, hc⟩)
  · intro h p hp
    exact h p.1 p.2 (mem_allCells.mp hp).1 (mem_allCells.mp hp).2

/-- `findEmptyCell` returns an in-range empty cell. -/
theorem findEmptyCell_eq_some (b : Board) (r c : Nat)
    (h : findEmptyCell b = some (r, c)) : r < 9 ∧ c < 9 ∧ b r c = 0 := by
  have hmem := List.mem_of_find?_eq_some h
  have hpred := List.find?_some h
  simp only [decide_eq_true_eq] at hpred
  have := mem_allCells.mp hmem
  exact ⟨this.1, this.2, hpred⟩

theorem peer_symm {r c r' c' : Nat} (h : Peer r c r' c') : Peer r' c' r c := by
  obtain ⟨h1, h2⟩ := h
  exact ⟨by tauto, by tauto⟩

/-! ### Completions of a partial grid (spec side of C7)

The spec describes `countSolutions` as "counting distinct completions of a
partial grid"; a completion is a full valid grid extending it. -/

/-- Filled cells are in 1–9 and no two filled peers hold the same digit. -/
def Consistent (g : Board) : Prop :=
  (∀ p ∈ allCells, g p.1 p.2 ≤ 9) ∧
  (∀ p ∈ allCells, ∀ q ∈ allCells,
    Peer p.1 p.2 q.1 q.2 → g p.1 p.2 ≠ 0 → g p.1 p.2 ≠ g q.1 q.2)

instance (g : Board) : Decidable (Consistent g) := by
  unfold Consistent; infer_instance

theorem consistent_le {g : Board} (h : Consistent g) {r c : Nat} (hr : r < 9) (hc : c < 9) :
    g r c ≤ 9 := h.1 (r, c) (mem_allCells.mpr ⟨hr, hc⟩)

theorem consistent_ne {g : Board} (h : Consistent g) {r c r' c' : Nat}
    (hr : r < 9) (hc : c < 9) (hr' : r' < 9) (hc' : c' < 9)
    (hp : Peer r c r' c') (h0 : g r c ≠ 0) : g r c ≠ g r' c' :=
  h.2 (r, c) (mem_allCells.mpr ⟨hr, hc⟩) (r', c') (mem_allCells.mpr ⟨hr', hc'⟩) hp h0

/-- `f` (+1 shifted to digits 1–9) is a valid full grid extending `g`. -/
def Completes (g : Board) (f : Fin 9 → Fin 9 → Fin 9) : Prop :=
  (∀ r c : Fin 9, g r c ≠ 0 → (f r c : Nat) + 1 = g r c) ∧
  (∀ r c r' c' : Fin 9, Peer r c r' c' → f r c ≠ f r' c')

instance (g : Board) : DecidablePred (Completes g) := fun _f => by
  unfold Completes; infer_instance

/-- The number of distinct full valid completions of the partial grid `g`. -/
def numCompletions (g : Board) : Nat :=
  Fintype.card {f : Fin 9 → Fin 9 → Fin 9 // Completes g f}

/-- Number of empty in-range cells. -/
def zeros (g : Board) : Nat :=
  ((Finset.range 9 ×ˢ Finset.range 9).filter fun p => g p.1 p.2 = 0).card

theorem zeros_le (g : Board) : zeros g ≤ 81 := by
  calc zeros g ≤ (Finset.range 9 ×ˢ Finset.range 9).card := Finset.card_filter_le _ _
  _ = 81 := by simp

theorem zeros_setCell_lt (g : Board) (r c v : Nat) (hr : r < 9) (hc : c < 9)
    (h0 : g r c = 0) (hv : v ≠ 0) : zeros (setCell g r c v) < zeros g := by
  have hsub : ((Finset.range 9 ×ˢ Finset.range 9).filter
      fun p => setCell g r c v p.1 p.2 = 0)
      = ((Finset.range 9 ×ˢ Finset.range 9).filter fun p => g p.1 p.2 = 0).erase (r, c) := by
    ext p
    simp only [Finset.mem_filter, Finset.mem_erase, Finset.mem_product, Finset.mem_range,
      setCell]
    constructor
    · rintro ⟨hp, hval⟩
      split at hval
      · exact absurd hval hv
      · rename_i hne
        refine ⟨?_, hp, hval⟩
        intro hpe
        exact hne ⟨by rw [hpe], by rw [hpe]⟩
    · rintro ⟨hne, hp, hval⟩
      refine ⟨hp, ?_⟩
      split
      · rename_i heq
        exact absurd (Prod.ext heq.1 heq.2) hne
      · exact hval
  unfold zeros
  rw [hsub]
  apply Finset.card_erase_lt_of_mem
  simp only [Finset.mem_filter, Finset.mem_product, Finset.mem_range]
  exact ⟨⟨hr, hc⟩, h0⟩

/-- A full consistent grid is its own unique completion. -/
theorem numCompletions_of_full (g : Board) (hcons : Consistent g)
    (hfull : ∀ r c, r < 9 → c < 9 → g r c ≠ 0) : numCompletions g = 1 := by
  have hb : ∀ r c : Fin 9, g r c - 1 < 9 := by
    intro r c
    have h1 := consistent_le hcons r.isLt c.isLt
    have h2 := hfull r c r.isLt c.isLt
    omega
  have hge : ∀ r c : Fin 9, 1 ≤ g r c := by
    intro r c
    have := hfull r c r.isLt c.isLt
    omega
  have h₀ : Completes g (fun r c => ⟨g r c - 1, hb r c⟩) := by
    constructor
    · intro r c _h
      show (g r c - 1) + 1 = g r c
      have := hge r c
      omega
    · intro r c r' c' hpeer heq
      have hval : (g r c - 1 : Nat) = g r' c' - 1 := congrArg Fin.val heq
      have h2 := consistent_ne hcons r.isLt c.isLt r'.isLt c'.isLt hpeer
        (hfull r c r.isLt c.isLt)
      have := hge r c
      have := hge r' c'
      omega
  apply Fintype.card_eq_one_iff.mpr
  refine ⟨⟨_, h₀⟩, ?_⟩
  rintro ⟨f, hf⟩
  apply Subtype.ext
  funext r c
  apply Fin.ext
  have := hf.1 r c (hfull r c r.isLt c.isLt)
  show (f r c : Nat) = g r c - 1
  omega

/-- Placing a validly-placeable digit keeps the grid consistent. -/
theorem consistent_setCell {g : Board} (hcons : Consistent g) {row col n : Nat}
    (hrow : row < 9) (hcol : col < 9) (h0 : g row col = 0)
    (hn1 : 1 ≤ n) (hn9 : n ≤ 9)
    (hvalid : isValidPlacement g row col n = true) :
    Consistent (setCell g row col n) := by
  have hiff := (isValidPlacement_true_iff g row col n hrow hcol).mp hvalid
  constructor
  · intro p hp
    obtain ⟨hp1, hp2⟩ := mem_allCells.mp hp
    by_cases h : p.1 = row ∧ p.2 = col
    · simp only [setCell, h, if_pos, and_self, if_true]
      exact hn9
    · rw [setCell]
      simp only [h, if_false]
      exact consistent_le hcons hp1 hp2
  · intro p hp q hq hpq hne0
    obtain ⟨hp1, hp2⟩ := mem_allCells.mp hp
    obtain ⟨hq1, hq2⟩ := mem_allCells.mp hq
    by_cases hpe : p.1 = row ∧ p.2 = col
    · by_cases hqe : q.1 = row ∧ q.2 = col
      · exfalso
        exact hpq.1 ⟨by omega, by omega⟩
      · simp only [setCell, hpe, and_self, if_true, hqe, if_false]
        have hq_peer : Peer row col q.1 q.2 := by
          obtain ⟨hne, hsh⟩ := hpq
          refine ⟨hqe, ?_⟩
          rcases hsh with h | h | h
          · exact Or.inl (by omega)
          · exact Or.inr (Or.inl (by omega))
          · exact Or.inr (Or.inr ⟨by omega, by omega⟩)
        intro heq
        exact hiff.1 q.1 q.2 hq1 hq2 hq_peer heq.symm
    · by_cases hqe : q.1 = row ∧ q.2 = col
      · simp only [setCell, hpe, if_false, hqe, and_self, if_true]
        have hp_peer : Peer row col p.1 p.2 := by
          have := peer_symm hpq
          obtain ⟨hne, hsh⟩ := this
          refine ⟨hpe, ?_⟩
          rcases hsh with h | h | h
          · exact Or.inl (by omega)
          · exact Or.inr (Or.inl (by omega))
          · exact Or.inr (Or.inr ⟨by omega, by omega⟩)
        have hval := hiff.1 p.1 p.2 hp1 hp2 hp_peer
        intro heq
        rw [setCell] at hne0
        simp only [hpe, if_false] at hne0
        exact hval heq
      · simp only [setCell, hpe, if_false, hqe]
        rw [setCell] at hne0
        simp only [hpe, if_false] at hne0
        exact consistent_ne hcons hp1 hp2 hq1 hq2 hpq hne0

/-- The completions placing digit `v+1` at the empty cell `(row,col)` are
exactly the completions of the updated grid. -/
theorem completions_fiber_eq (g : Board) (row col : Nat)
    (hrow : row < 9) (hcol : col < 9) (h0 : g row col = 0) (v : Fin 9) :
    ∀ f : Fin 9 → Fin 9 → Fin 9,
      (Completes g f ∧ f ⟨row, hrow⟩ ⟨col, hcol⟩ = v) ↔
      Completes (setCell g row col ((v : Nat) + 1)) f := by
  intro f
  constructor
  · rintro ⟨⟨hext, hval⟩, hcell⟩
    constructor
    · intro r c hne
      by_cases h : (r : Nat) = row ∧ (c : Nat) = col
      · rw [setCell]
        simp only [h, and_self, if_true]
        rw [show (⟨row, hrow⟩ : Fin 9) = r from Fin.ext h.1.symm] at hcell
        rw [show (⟨col, hcol⟩ : Fin 9) = c from Fin.ext h.2.symm] at hcell
        rw [hcell]
      · rw [setCell] at hne ⊢
        simp only [h, if_false] at hne ⊢
        exact hext r c hne
    · exact hval
  · rintro ⟨hext, hval⟩
    refine ⟨⟨?_, hval⟩, ?_⟩
    · intro r c hne
      have h : ¬((r : Nat) = row ∧ (c : Nat) = col) := by
        intro h
        rw [show r = (⟨row, hrow⟩ : Fin 9) from Fin.ext h.1] at hne
        rw [show c = (⟨col, hcol⟩ : Fin 9) from Fin.ext h.2] at hne
        exact hne h0
      have h2 := hext r c
      rw [setCell] at h2
      simp only [h, if_false] at h2
      exact h2 hne
    · have h2 := hext ⟨row, hrow⟩ ⟨col, hcol⟩
      rw [setCell] at h2
      simp only [and_self, if_true] at h2
      have h3 := h2 (by omega)
      apply Fin.ext
      omega

/-- If digit `v+1` is not placeable at the empty cell `(row,col)`, no
completion places `v` there. -/
theorem completions_fiber_empty (g : Board) (row col : Nat)
    (hrow : row < 9) (hcol : col < 9) (h0 : g row col = 0) (v : Fin 9)
    (hvalid : ¬ isValidPlacement g row col ((v : Nat) + 1) = true) :
    ∀ f : Fin 9 → Fin 9 → Fin 9,
      ¬(Completes g f ∧ f ⟨row, hrow⟩ ⟨col, hcol⟩ = v) := by
  intro f
  rintro ⟨⟨hext, hval⟩, hcell⟩
  rw [isValidPlacement_true_iff g row col _ hrow hcol] at hvalid
  have hself : g row col ≠ (v : Nat) + 1 := by omega
  have hnp : ¬(∀ r' c', r' < 9 → c' < 9 → Peer row col r' c' → g r' c' ≠ (v : Nat) + 1) := by
    intro hall
    exact hvalid ⟨hall, hself⟩
  push_neg at hnp
  obtain ⟨r', c', hr', hc', hpeer, hval'⟩ := hnp
  have hfr : (f ⟨r', hr'⟩ ⟨c', hc'⟩ : Nat) + 1 = (v : Nat) + 1 := by
    rw [hext ⟨r', hr'⟩ ⟨c', hc'⟩ (by rw [hval']; omega), hval']
  have hne : f ⟨row, hrow⟩ ⟨col, hcol⟩ ≠ f ⟨r', hr'⟩ ⟨c', hc'⟩ :=
    hval ⟨row, hrow⟩ ⟨col, hcol⟩ ⟨r', hr'⟩ ⟨c', hc'⟩ hpeer
  apply hne
  apply Fin.ext
  rw [hcell]
  omega

set_option linter.constructorNameAsVariable false in
/-- Branching at an empty cell partitions the completions by the digit
placed there; invalid digits contribute none. -/
theorem numCompletions_branch (g : Board) (row col : Nat)
    (hrow : row < 9) (hcol : col < 9) (h0 : g row col = 0) :
    numCompletions g = ∑ v : Fin 9,
      (if isValidPlacement g row col ((v : Nat) + 1) then
        numCompletions (setCell g row col ((v : Nat) + 1)) else 0) := by
  classical
  have hcard : numCompletions g
      = (Finset.univ.filter fun f : Fin 9 → Fin 9 → Fin 9 => Completes g f).card := by
    rw [numCompletions, Fintype.card_subtype]
  rw [hcard]
  rw [Finset.card_eq_sum_card_fiberwise
    (f := fun f : Fin 9 → Fin 9 → Fin 9 => f ⟨row, hrow⟩ ⟨col, hcol⟩)
    (t := Finset.univ) (fun x _ => Finset.mem_univ _)]
  apply Finset.sum_congr rfl
  intro v _
  rw [Finset.filter_filter]
  by_cases hvalid : isValidPlacement g row col ((v : Nat) + 1) = true
  · rw [if_pos hvalid]
    rw [numCompletions, Fintype.card_subtype]
    apply Finset.card_nbij (fun f => f)
    · intro f hf
      simp only [Finset.mem_coe, Finset.mem_filter, Finset.mem_univ, true_and] at hf ⊢
      exact (completions_fiber_eq g row col hrow hcol h0 v f).mp hf
    · intro f₁ _ f₂ _ h
      exact h
    · intro f hf
      simp only [Set.mem_image, Finset.mem_coe, Finset.mem_filter, Finset.mem_univ,
        true_and] at hf ⊢
      exact ⟨f, (completions_fiber_eq g row col hrow hcol h0 v f).mpr hf, rfl⟩
  · rw [if_neg hvalid]
    rw [Finset.card_eq_zero, Finset.filter_eq_empty_iff]
    intro f _
    exact completions_fiber_empty g row col hrow hcol h0 v hvalid f

/-- The digit loop of `solve()` accumulates `min limit (count + Σ branch counts)`. -/
theorem countNums_spec (limit fuel row col : Nat) (g : Board)
    (hrow : row < 9) (hcol : col < 9) (h0 : g row col = 0) (hcons : Consistent g)
    (hz : zeros g ≤ fuel)
    (IH : ∀ b count, Consistent b → zeros b < fuel → count ≤ limit →
      solveCount limit fuel b count = min limit (count + numCompletions b)) :
    ∀ nums count, (∀ n ∈ nums, 1 ≤ n ∧ n ≤ 9) → count ≤ limit →
      countNums (solveCount limit fuel) row col nums g count
        = min limit (count + (nums.map fun n =>
            if isValidPlacement g row col n then
              numCompletions (setCell g row col n) else 0).sum) := by
  intro nums
  induction nums with
  | nil =>
    intro count _ hcount
    simp only [countNums, List.map_nil, List.sum_nil, Nat.add_zero]
    omega
  | cons n ns ih =>
    intro count hmem hcount
    have hn := hmem n (List.mem_cons_self n ns)
    simp only [countNums]
    by_cases hv : isValidPlacement g row col n = true
    · rw [if_pos hv]
      have hconsn : Consistent (setCell g row col n) :=
        consistent_setCell hcons hrow hcol h0 hn.1 hn.2 hv
      have hzn : zeros (setCell g row col n) < fuel :=
        lt_of_lt_of_le (zeros_setCell_lt g row col n hrow hcol h0 (by omega)) hz
      rw [IH (setCell g row col n) count hconsn hzn hcount]
      rw [ih _ (fun m hm => hmem m (List.mem_cons_of_mem _ hm)) (by omega)]
      simp only [List.map_cons, List.sum_cons, if_pos hv]
      omega
    · rw [if_neg hv]
      rw [ih count (fun m hm => hmem m (List.mem_cons_of_mem _ hm)) hcount]
      simp only [List.map_cons, List.sum_cons, if_neg hv]
      omega

theorem listSum_eq_finSum (g : Board) (row col : Nat) :
    (([1, 2, 3, 4, 5, 6, 7, 8, 9] : List Nat).map fun n =>
      if isValidPlacement g row col n then
        numCompletions (setCell g row col n) else 0).sum
    = ∑ v : Fin 9,
      (if isValidPlacement g row col ((v : Nat) + 1) then
        numCompletions (setCell g row col ((v : Nat) + 1)) else 0) := by
  simp [Fin.sum_univ_succ, List.sum_cons]

/-- The core counting property of `countSolutions`' inner search. -/
theorem solveCount_spec (limit : Nat) :
    ∀ fuel g count, Consistent g → zeros g < fuel → count ≤ limit →
      solveCount limit fuel g count = min limit (count + numCompletions g) := by
  intro fuel
  induction fuel with
  | zero => intro g count _ hz _; omega
  | succ fuel ih =>
    intro g count hcons hz hcount
    simp only [solveCount]
    by_cases hlim : limit ≤ count
    · rw [if_pos hlim]
      omega
    · rw [if_neg hlim]
      split
      · rename_i hfind
        have hfull : ∀ r c, r < 9 → c < 9 → g r c ≠ 0 := (findEmptyCell_eq_none_iff g).mp hfind
        rw [numCompletions_of_full g hcons hfull]
        omega
      · rename_i row col hfind
        obtain ⟨hrow, hcol, h0⟩ := findEmptyCell_eq_some g row col hfind
        rw [countNums_spec limit fuel row col g hrow hcol h0 hcons (by omega) ih
          [1, 2, 3, 4, 5, 6, 7, 8, 9] count (by decide) (by omega)]
        rw [listSum_eq_finSum, ← numCompletions_branch g row col hrow hcol h0]

/-! ### The backtracking filler succeeds and produces valid grids (C2) -/

theorem length_listSwap {α : Type} [Inhabited α] (l : List α) (i j : Nat) :
    (listSwap l i j).length = l.length := by simp [listSwap]

theorem mem_listSwap {α : Type} [Inhabited α] {l : List α} {i j : Nat}
    (hi : i < l.length) (hj : j < l.length) (x : α) :
    x ∈ listSwap l i j ↔ x ∈ l := by
  constructor
  · intro hx
    unfold listSwap at hx
    rcases List.mem_or_eq_of_mem_set hx with hx | rfl
    · rcases List.mem_or_eq_of_mem_set hx with hx | rfl
      · exact hx
      · rw [List.getD_eq_getElem l _ hj]; exact List.getElem_mem hj
    · rw [List.getD_eq_getElem l _ hi]; exact List.getElem_mem hi
  · intro hx
    rw [List.mem_iff_getElem] at hx ⊢
    obtain ⟨k, hk, rfl⟩ := hx
    by_cases hki : k = i
    · subst hki
      refine ⟨j, by simp [length_listSwap]; omega, ?_⟩
      unfold listSwap
      rw [List.getElem_set, if_pos rfl]
      exact List.getD_eq_getElem l default hk
    · by_cases hkj : k = j
      · subst hkj
        refine ⟨i, by simp [length_listSwap]; omega, ?_⟩
        unfold listSwap
        rw [List.getElem_set]
        by_cases hik : k = i
        · rw [if_pos hik]
          subst hik
          exact List.getD_eq_getElem l default hk
        · rw [if_neg hik, List.getElem_set, if_pos rfl]
          exact List.getD_eq_getElem l default hk
      · refine ⟨k, by simp [length_listSwap]; omega, ?_⟩
        unfold listSwap
        rw [List.getElem_set, if_neg (fun h => hkj h.symm),
          List.getElem_set, if_neg (fun h => hki h.symm)]

theorem mem_shuffleSteps {α : Type} [Inhabited α] (rng : Nat → Nat) :
    ∀ i (l : List α) t, i < l.length →
      ∀ x, (x ∈ (shuffleSteps rng l i t).1 ↔ x ∈ l) := by
  intro i
  induction i with
  | zero => intro l t _ x; rfl
  | succ i ih =>
    intro l t hi x
    show x ∈ (shuffleSteps rng (listSwap l (i + 1) (rng t % (i + 2))) i (t + 1)).1 ↔ x ∈ l
    rw [ih _ (t + 1) (by rw [length_listSwap]; omega) x]
    exact mem_listSwap hi (by have := Nat.mod_lt (rng t) (y := i + 2) (by omega); omega) x

theorem mem_shuffleArray {α : Type} [Inhabited α] (rng : Nat → Nat) (l : List α)
    (t : Nat) (x : α) : x ∈ (shuffleArray rng l t).1 ↔ x ∈ l := by
  unfold shuffleArray
  rcases l with _ | ⟨a, l'⟩
  · rfl
  · exact mem_shuffleSteps rng _ _ t (by simp) x

/-- The canonical completion of the empty board. -/
def fT : Fin 9 → Fin 9 → Fin 9 :=
  fun r c => ⟨((r : Nat) * 3 + (r : Nat) / 3 + (c : Nat)) % 9, Nat.mod_lt _ (by omega)⟩

theorem completes_emptyBoard : Completes emptyBoard fT :=
  ⟨fun _r _c h => absurd rfl h, by decide⟩

/-- At an empty cell, the digit a completion places there is a valid
placement. -/
theorem isValidPlacement_of_completes {b : Board} {f : Fin 9 → Fin 9 → Fin 9}
    {row col : Nat} (hc : Completes b f) (hrow : row < 9) (hcol : col < 9)
    (h0 : b row col = 0) :
    isValidPlacement b row col ((f ⟨row, hrow⟩ ⟨col, hcol⟩ : Nat) + 1) = true := by
  rw [isValidPlacement_true_iff _ _ _ _ hrow hcol]
  refine ⟨?_, by rw [h0]; omega⟩
  intro r' c' hr' hc' hpeer heq
  have h1 := hc.1 ⟨r', hr'⟩ ⟨c', hc'⟩ (by rw [heq]; omega)
  have h2 := hc.2 ⟨row, hrow⟩ ⟨col, hcol⟩ ⟨r', hr'⟩ ⟨c', hc'⟩ hpeer
  apply h2
  apply Fin.ext
  rw [heq] at h1
  omega

/-- A completion still completes the board extended with its own digit. -/
theorem completes_setCell {b : Board} {f : Fin 9 → Fin 9 → Fin 9}
    {row col : Nat} (hc : Completes b f) (hrow : row < 9) (hcol : col < 9) :
    Completes (setCell b row col ((f ⟨row, hrow⟩ ⟨col, hcol⟩ : Nat) + 1)) f := by
  refine ⟨?_, hc.2⟩
  intro r c hne
  rw [setCell] at hne ⊢
  by_cases h : (r : Nat) = row ∧ (c : Nat) = col
  · simp only [h, and_self, if_true]
    have hr : r = ⟨row, hrow⟩ := Fin.ext h.1
    have hcc : c = ⟨col, hcol⟩ := Fin.ext h.2
    rw [hr, hcc]
  · simp only [h, if_false] at hne ⊢
    exact hc.1 r c hne

/-- If some digit in the list is valid and its recursive fill succeeds,
the `for num of numbers` loop succeeds. -/
theorem fillTry_isSome (fillRec : Board → Nat → Option Board × Nat)
    (row col : Nat) (b : Board) (n₀ : Nat)
    (hvalid : isValidPlacement b row col n₀ = true)
    (hsucc : ∀ t, (fillRec (setCell b row col n₀) t).1.isSome = true) :
    ∀ nums t, n₀ ∈ nums → (fillTry fillRec row col nums b t).1.isSome = true := by
  intro nums
  induction nums with
  | nil => intro t h; cases h
  | cons n ns ih =>
    intro t hmem
    rcases List.mem_cons.mp hmem with rfl | hmem'
    · simp only [fillTry, if_pos hvalid]
      have := hsucc t
      match hres : fillRec (setCell b row col n₀) t with
      | (some res, t') => rfl
      | (none, t') => rw [hres] at this; exact absurd this (by simp)
    · simp only [fillTry]
      by_cases hv : isValidPlacement b row col n = true
      · rw [if_pos hv]
        match hres : fillRec (setCell b row col n) t with
        | (some res, t') => rfl
        | (none, t') => exact ih t' hmem'
      · rw [if_neg hv]
        exact ih t hmem'

/-- Any digit 1–9 is in the literal list the filler shuffles. -/
theorem mem_digits {n : Nat} (h1 : 1 ≤ n) (h9 : n ≤ 9) :
    n ∈ ([1, 2, 3, 4, 5, 6, 7, 8, 9] : List Nat) := by
  interval_cases n <;> decide

/-- **Completeness of the backtracking filler**: from any extendable board,
`fillBoard` succeeds (for every outcome of the shuffles). -/
theorem fillBoard_isSome (rng : Nat → Nat) :
    ∀ fuel b t, (∃ f, Completes b f) → zeros b < fuel →
      (fillBoard rng fuel b t).1.isSome = true := by
  intro fuel
  induction fuel with
  | zero => intro b t _ hz; omega
  | succ fuel ih =>
    intro b t hext hz
    obtain ⟨f, hf⟩ := hext
    simp only [fillBoard]
    split
    · rfl
    · rename_i row col hfind
      obtain ⟨hrow, hcol, h0⟩ := findEmptyCell_eq_some b row col hfind
      apply fillTry_isSome _ row col b ((f ⟨row, hrow⟩ ⟨col, hcol⟩ : Nat) + 1)
        (isValidPlacement_of_completes hf hrow hcol h0)
      · intro t'
        apply ih _ t' ⟨f, completes_setCell hf hrow hcol⟩
        have := zeros_setCell_lt b row col _ hrow hcol h0
          (by omega : ((f ⟨row, hrow⟩ ⟨col, hcol⟩ : Nat) + 1) ≠ 0)
        omega
      · rw [mem_shuffleArray]
        exact mem_digits (by omega) (by have := (f ⟨row, hrow⟩ ⟨col, hcol⟩).isLt; omega)

/-- Whatever `fillBoard` returns on success is a full consistent grid. -/
theorem fillTry_props (fillRec : Board → Nat → Option Board × Nat)
    (row col : Nat)
    (hrec : ∀ b t res t', Consistent b → fillRec b t = (some res, t') →
      Consistent res ∧ ∀ r c, r < 9 → c < 9 → res r c ≠ 0) :
    ∀ nums (b : Board) t res t', Consistent b → row < 9 → col < 9 → b row col = 0 →
      (∀ n ∈ nums, 1 ≤ n ∧ n ≤ 9) →
      fillTry fillRec row col nums b t = (some res, t') →
      Consistent res ∧ ∀ r c, r < 9 → c < 9 → res r c ≠ 0 := by
  intro nums
  induction nums with
  | nil => intro b t res t' _ _ _ _ _ h; cases h
  | cons n ns ih =>
    intro b t res t' hcons hrow hcol h0 hmem heq
    have hn := hmem n (List.mem_cons_self n ns)
    simp only [fillTry] at heq
    by_cases hv : isValidPlacement b row col n = true
    · rw [if_pos hv] at heq
      have hconsn : Consistent (setCell b row col n) :=
        consistent_setCell hcons hrow hcol h0 hn.1 hn.2 hv
      match hres : fillRec (setCell b row col n) t with
      | (some res₁, t₁) =>
        rw [hres] at heq
        cases heq
        exact hrec _ _ _ _ hconsn hres
      | (none, t₁) =>
        rw [hres] at heq
        exact ih b t₁ res t' hcons hrow hcol h0
          (fun m hm => hmem m (List.mem_cons_of_mem _ hm)) heq
    · rw [if_neg hv] at heq
      exact ih b t res t' hcons hrow hcol h0
        (fun m hm => hmem m (List.mem_cons_of_mem _ hm)) heq

theorem fillBoard_props (rng : Nat → Nat) :
    ∀ fuel b t res t', Consistent b →
      fillBoard rng fuel b t = (some res, t') →
      Consistent res ∧ ∀ r c, r < 9 → c < 9 → res r c ≠ 0 := by
  intro fuel
  induction fuel with
  | zero => intro b t res t' _ h; cases h
  | succ fuel ih =>
    intro b t res t' hcons heq
    simp only [fillBoard] at heq
    split at heq
    · rename_i hfind
      cases heq
      exact ⟨hcons, (findEmptyCell_eq_none_iff b).mp hfind⟩
    · rename_i row col hfind
      obtain ⟨hrow, hcol, h0⟩ := findEmptyCell_eq_some b row col hfind
      refine fillTry_props (fillBoard rng fuel) row col ih
        (shuffleArray rng [1, 2, 3, 4, 5, 6, 7, 8, 9] t).1 b
        (shuffleArray rng [1, 2, 3, 4, 5, 6, 7, 8, 9] t).2 res t' hcons hrow hcol h0 ?_ heq
      intro m hm
      rw [mem_shuffleArray] at hm
      simp only [List.mem_cons, List.not_mem_nil, or_false] at hm
      omega

/-- `generateSolution` always returns a full consistent grid: the filler
cannot fail from the empty board. -/
theorem generateSolution_props (rng : Nat → Nat) (t : Nat) :
    Consistent (generateSolution rng t).1 ∧
      ∀ r c, r < 9 → c < 9 → (generateSolution rng t).1 r c ≠ 0 := by
  have hsome := fillBoard_isSome rng 82 emptyBoard t ⟨fT, completes_emptyBoard⟩
    (by have := zeros_le emptyBoard; omega)
  have hcons : Consistent emptyBoard := by decide
  unfold generateSolution
  split
  · rename_i b t' heq
    exact fillBoard_props rng 82 emptyBoard t b t' hcons heq
  · rename_i t' heq
    rw [heq] at hsome
    exact absurd hsome (by simp)

/-- `getUnits()` from the source: 9 rows, 9 columns, 9 boxes. -/
def getUnits : List (List (Nat × Nat)) :=
  ((List.range 9).map fun r => (List.range 9).map fun c => (r, c)) ++
  ((List.range 9).map fun c => (List.range 9).map fun r => (r, c)) ++
  ((List.range 3).flatMap fun br => (List.range 3).map fun bc =>
    (List.range 3).flatMap fun dr => (List.range 3).map fun dc =>
      (br * 3 + dr, bc * 3 + dc))

theorem getUnits_facts : ∀ u ∈ getUnits, u.length = 9 ∧ u.Nodup ∧
    (∀ p ∈ u, p.1 < 9 ∧ p.2 < 9) ∧
    (∀ p ∈ u, ∀ q ∈ u, p ≠ q → Peer p.1 p.2 q.1 q.2) := by decide

/-- In a full consistent grid, every unit holds each digit 1–9 exactly
once. -/
theorem unit_countP_eq_one (b : Board) (hcons : Consistent b)
    (hfull : ∀ r c, r < 9 → c < 9 → b r c ≠ 0)
    (u : List (Nat × Nat)) (hu : u ∈ getUnits)
    (d : Nat) (h1 : 1 ≤ d) (h9 : d ≤ 9) :
    (u.countP fun p => b p.1 p.2 == d) = 1 := by
  obtain ⟨hlen, hnd, hrange, hpeer⟩ := getUnits_facts u hu
  have hinj : ∀ p ∈ u, ∀ q ∈ u, b p.1 p.2 = b q.1 q.2 → p = q := by
    intro p hp q hq heq
    by_contra hne
    exact consistent_ne hcons (hrange p hp).1 (hrange p hp).2 (hrange q hq).1
      (hrange q hq).2 (hpeer p hp q hq hne) (hfull p.1 p.2 (hrange p hp).1 (hrange p hp).2)
      heq
  have hvs_nd : (u.map fun p => b p.1 p.2).Nodup := hnd.map_on hinj
  have hsub : (u.map fun p => b p.1 p.2).toFinset ⊆ Finset.Icc 1 9 := by
    intro v hv
    rw [List.mem_toFinset, List.mem_map] at hv
    obtain ⟨p, hp, rfl⟩ := hv
    rw [Finset.mem_Icc]
    have hle := consistent_le hcons (hrange p hp).1 (hrange p hp).2
    have hne := hfull p.1 p.2 (hrange p hp).1 (hrange p hp).2
    omega
  have hcard : (u.map fun p => b p.1 p.2).toFinset.card = 9 := by
    rw [List.toFinset_card_of_nodup hvs_nd, List.length_map, hlen]
  have hfeq : (u.map fun p => b p.1 p.2).toFinset = Finset.Icc 1 9 := by
    apply Finset.eq_of_subset_of_card_le hsub
    rw [hcard, Nat.card_Icc]
  have hd : d ∈ u.map fun p => b p.1 p.2 := by
    rw [← List.mem_toFinset, hfeq, Finset.mem_Icc]
    omega
  have hcount : (u.map fun p => b p.1 p.2).count d = 1 :=
    List.count_eq_one_of_mem hvs_nd hd
  rw [List.count, List.countP_map] at hcount
  exact hcount

/-- A concrete full valid grid (the standard shifted pattern). -/
def TBoard : Board := fun r c => (r * 3 + r / 3 + c) % 9 + 1

/-- `TBoard` with cell (0,0) blanked: the one-blank scenario of the spec. -/
def gOne : Board := setCell TBoard 0 0 0

/-- The `{solved, maxLevel, techniquesUsed}` record produced by
`solvePuzzleWithLogic`. -/
structure AnalysisResult where
  solved : Bool
  maxLevel : Nat
  techniquesUsed : List String
deriving Repr, DecidableEq

/-- The `{minRemove, maxRemove, maxLevel}` difficulty configuration. -/
structure DifficultyConfig where
  minRemove : Nat
  maxRemove : Nat
  maxLevel : Nat
deriving Repr, DecidableEq

/-- `isLevelMatch(analysis, config)` from the source. -/
def isLevelMatch (a : AnalysisResult) (cfg : DifficultyConfig) : Bool :=
  if !a.solved then false
  else if cfg.maxLevel < a.maxLevel then false
  else if cfg.maxLevel ≤ 2 then true
  else if cfg.maxLevel ≤ 4 then decide (a.maxLevel = cfg.maxLevel)
  else if cfg.maxLevel = 5 then decide (5 ≤ a.maxLevel)
  else decide (6 ≤ a.maxLevel)

/-- **C5.** `isLevelMatch` rejects unsolved analyses and analyses whose
`maxLevel` exceeds `config.maxLevel`; among the rest it accepts everything
when `config.maxLevel ≤ 2`, exactly-equal levels when `config.maxLevel` is
3 or 4, levels ≥ 5 when it is 5 and levels ≥ 6 when it is ≥ 6.  In
particular `config.maxLevel = 4` rejects `maxLevel ∈ {1,2}` and
`maxLevel ≥ 5`. -/
theorem c5_isLevelMatch_policy (a : AnalysisResult) (cfg : DifficultyConfig) :
    (isLevelMatch a cfg = true ↔
      a.solved = true ∧ a.maxLevel ≤ cfg.maxLevel ∧
        (cfg.maxLevel ≤ 2 ∨
         ((cfg.maxLevel = 3 ∨ cfg.maxLevel = 4) ∧ a.maxLevel = cfg.maxLevel) ∨
         (cfg.maxLevel = 5 ∧ 5 ≤ a.maxLevel) ∨
         (6 ≤ cfg.maxLevel ∧ 6 ≤ a.maxLevel))) ∧
    (cfg.maxLevel = 4 → a.maxLevel ≤ 2 ∨ 5 ≤ a.maxLevel →
      isLevelMatch a cfg = false) := by
  rcases a with ⟨solved, aML, used⟩
  rcases cfg with ⟨mr, xr, cML⟩
  cases solved <;>
    · constructor
      · simp only [isLevelMatch]
        split_ifs <;> simp_all <;> omega
      · intro h4 hr
        simp only [isLevelMatch]
        split_ifs <;> simp_all <;> omega

/-- Witness for C5 at a concrete input: an analysis solved with only naked
and hidden singles (`maxLevel = 2`) is rejected when tier 4 is requested. -/
theorem c5_isLevelMatch_policy_witness :
    isLevelMatch ⟨true, 2, []⟩ ⟨0, 0, 4⟩ = false :=
  (c5_isLevelMatch_policy ⟨true, 2, []⟩ ⟨0, 0, 4⟩).2 rfl (Or.inl (by decide))

/-- The board used to refute C6 as stated: only cell (0,0) is filled, with 5. -/
def gC6 : Board := fun r c => if r = 0 ∧ c = 0 then 5 else 0

/-- **C6 counterexample.** `isValidPlacement` also inspects the cell
`(r, c)` itself, not only its 20 peers: on a board whose only filled cell
is `(0,0) = 5`, `isValidPlacement(board, 0, 0, 5)` returns `false` although
no peer of `(0,0)` holds 5 — so the claimed "iff no peer holds v, and the
content of `(r,c)` does not affect the result" is false. -/
theorem c6_counterexample :
    isValidPlacement gC6 0 0 5 = false ∧
    ((allCells.filter fun p => decide (Peer 0 0 p.1 p.2)).all
        fun p => gC6 p.1 p.2 != 5) = true := by
  exact ⟨by decide, by decide⟩

/-- **C6 (amended).** For in-range cells and digits, `isValidPlacement`
returns `true` iff no cell of the row, column or box holds `v` — that is,
iff no peer of `(r,c)` holds `v` *and* `(r,c)` itself does not hold `v`;
moreover every cell has exactly 20 peers. -/
theorem c6_isValidPlacement_iff (g : Board) (r c v : Nat)
    (hr : r < 9) (hc : c < 9) (hv1 : 1 ≤ v) (hv9 : v ≤ 9) :
    (isValidPlacement g r c v = true ↔
      (∀ r' c', r' < 9 → c' < 9 → Peer r c r' c' → g r' c' ≠ v) ∧ g r c ≠ v) ∧
    (allCells.filter fun p => decide (Peer r c p.1 p.2)).length = 20 := by
  constructor
  · exact isValidPlacement_true_iff g r c v hr hc
  · have : ∀ a, a < 9 → ∀ b, b < 9 →
        (allCells.filter fun p => decide (Peer a b p.1 p.2)).length = 20 := by decide
    exact this r hr c hc

/-- Witness for C6 (amended) at a concrete input: board with 5 at (0,0),
checking digit 5 at cell (0,1). -/
theorem c6_isValidPlacement_iff_witness :
    (isValidPlacement gC6 0 1 5 = true ↔
      (∀ r' c', r' < 9 → c' < 9 → Peer 0 1 r' c' → gC6 r' c' ≠ 5) ∧ gC6 0 1 ≠ 5) ∧
    (allCells.filter fun p => decide (Peer 0 1 p.1 p.2)).length = 20 :=
  c6_isValidPlacement_iff gC6 0 1 5 (by decide) (by decide) (by decide) (by decide)

/-- **C7 counterexample.** The claim quantifies over *every* partial grid,
but on a grid whose clues already conflict (here: every cell filled with 5)
`countSolutions` returns 1 — the search never re-checks clue-against-clue
conflicts — while the grid has 0 full completions, so
`countSolutions ≠ min limit (number of completions)` there. -/
theorem c7_counterexample :
    countSolutions (fun _ _ => 5) 2 = 1 ∧ numCompletions (fun _ _ => 5) = 0 := by
  constructor
  · decide
  · rw [numCompletions, Fintype.card_eq_zero_iff]
    constructor
    rintro ⟨f, hext, hval⟩
    have h1 : (f 0 0 : Nat) + 1 = 5 := hext 0 0 (by norm_num)
    have h2 : (f 0 1 : Nat) + 1 = 5 := hext 0 1 (by norm_num)
    have hpeer : Peer ((0 : Fin 9) : Nat) ((0 : Fin 9) : Nat)
        ((0 : Fin 9) : Nat) ((1 : Fin 9) : Nat) := by decide
    exact hval 0 0 0 1 hpeer (by apply Fin.ext; omega)

/-- **C7 (amended).** For every partial grid whose filled cells are digits
1–9 with no two equal filled peers (`Consistent`), and every limit,
`countSolutions(grid, limit)` returns the number of distinct full
completions of the grid when that number is below the limit and exactly
`limit` otherwise: it equals `min limit (numCompletions grid)`. -/
theorem c7_countSolutions_counts (g : Board) (limit : Nat) (hcons : Consistent g) :
    countSolutions g limit = min limit (numCompletions g) := by
  have h := solveCount_spec limit 82 g 0 hcons (by have := zeros_le g; omega) (Nat.zero_le _)
  simpa [countSolutions] using h

/-- Witness for C7 at the spec's concrete scenario: a valid full grid with
one blank cell is consistent, the theorem applies to it, and
`countSolutions` returns exactly 1 on it. -/
theorem c7_countSolutions_counts_witness :
    Consistent gOne ∧ countSolutions gOne 2 = min 2 (numCompletions gOne) ∧
      countSolutions gOne 2 = 1 :=
  have hc : Consistent gOne := by decide
  ⟨hc, c7_countSolutions_counts gOne 2 hc, by decide⟩

/-- **C2.** For every outcome of the internal random shuffles,
`generateSolution()` (which starts from the empty board) returns a 9×9
grid with no zeros in which every row, column and 3×3 box (each unit of
`getUnits`) contains each digit 1–9 exactly once. -/
theorem c2_generateSolution_valid (rng : Nat → Nat) (t : Nat) :
    (∀ r c, r < 9 → c < 9 → (generateSolution rng t).1 r c ≠ 0) ∧
    (∀ u ∈ getUnits, ∀ d, 1 ≤ d → d ≤ 9 →
      (u.countP fun p => (generateSolution rng t).1 p.1 p.2 == d) = 1) := by
  obtain ⟨hcons, hfull⟩ := generateSolution_props rng t
  exact ⟨hfull, fun u hu d h1 h9 => unit_countP_eq_one _ hcons hfull u hu d h1 h9⟩

/-- Witness for C2 at a concrete input: the all-zero random stream, row 0,
digit 5. -/
theorem c2_generateSolution_valid_witness :
    ((generateSolution (fun _ => 0) 0).1 0 0 ≠ 0) ∧
    (([(0, 0), (0, 1), (0, 2), (0, 3), (0, 4), (0, 5), (0, 6), (0, 7), (0, 8)]
        : List (Nat × Nat)).countP
      fun p => (generateSolution (fun _ => 0) 0).1 p.1 p.2 == 5) = 1 :=
  ⟨(c2_generateSolution_valid (fun _ => 0) 0).1 0 0 (by decide) (by decide),
   (c2_generateSolution_valid (fun _ => 0) 0).2 _ (by decide) 5 (by decide) (by decide)⟩

/-! ### The Logic Solver: candidate engine and the eight techniques

The JS functions mutate `(board, cands)` in place and return a progress
flag; here each is a function `GState → GState × Bool`, with every loop a
`foldl` threading the state-and-flag accumulator in the source's
iteration order. -/

/-- The mutable `(board, candidates)` pair the techniques operate on. -/
structure GState where
  board : Board
  cands : Nat → Nat → Finset Nat

/-- Functional update of one cell's candidate set. -/
def updCands (cs : Nat → Nat → Finset Nat) (r c : Nat) (s : Finset Nat) :
    Nat → Nat → Finset Nat :=
  fun r' c' => if r' = r ∧ c' = c then s else cs r' c'

/-- `cands[r][c].delete(v)` with its boolean result or-ed into the
progress flag. -/
def delCand (acc : GState × Bool) (r c v : Nat) : GState × Bool :=
  if v ∈ acc.1.cands r c then
    ({ acc.1 with cands := updCands acc.1.cands r c ((acc.1.cands r c).erase v) }, true)
  else acc

/-- `eliminateFromPeers(cands, row, col, val)`: delete `val` from every
cell of the row (9 cells), the column (9 cells) and the box, rendered
pointwise (the union of the source's three delete loops). -/
def eliminateFromPeers (cs : Nat → Nat → Finset Nat) (row col val : Nat) :
    Nat → Nat → Finset Nat :=
  fun r c =>
    if (r = row ∧ c < 9) ∨ (c = col ∧ r < 9) ∨
        (r / 3 = row / 3 ∧ c / 3 = col / 3) then
      (cs r c).erase val
    else cs r c

/-- The three mutations a technique performs when placing a digit:
`board[r][c] = val; cands[r][c].clear(); eliminateFromPeers(...)`. -/
def placeCell (st : GState) (r c v : Nat) : GState :=
  { board := setCell st.board r c v,
    cands := eliminateFromPeers (updCands st.cands r c ∅) r c v }

/-- `getCandidates(board)`: per empty cell, the set of digits passing
`isValidPlacement`; empty for filled cells. -/
def getCandidates (b : Board) : Nat → Nat → Finset Nat :=
  fun r c =>
    if r < 9 ∧ c < 9 ∧ b r c = 0 then
      (Finset.Icc 1 9).filter fun n => isValidPlacement b r c n
    else ∅

/-- The digits 1–9 in the order every `for (n = 1; n <= 9; n++)` loop
visits them. -/
def digits : List Nat := [1, 2, 3, 4, 5, 6, 7, 8, 9]

/-- `[...set]`: a JS `Set` of digits iterates in insertion order, which is
ascending for every set this engine builds. -/
def setToList (s : Finset Nat) : List Nat := s.sort (· ≤ ·)

/-- `getPeers(row, col)` from the source: row cells, then unseen column
cells, then unseen box cells (the `seen` bookkeeping resolved: a box cell
is new exactly when it shares neither the row nor the column). -/
def getPeers (row col : Nat) : List (Nat × Nat) :=
  ((List.range 9).filterMap fun c => if c ≠ col then some (row, c) else none) ++
  ((List.range 9).filterMap fun r => if r ≠ row then some (r, col) else none) ++
  ((List.range 3).flatMap fun dr => (List.range 3).filterMap fun dc =>
    if row / 3 * 3 + dr ≠ row ∧ col / 3 * 3 + dc ≠ col then
      some (row / 3 * 3 + dr, col / 3 * 3 + dc)
    else none)

/-- `isPeer(r1, c1, r2, c2)` from the source (note: true on equal cells). -/
def isPeer (r1 c1 r2 c2 : Nat) : Bool :=
  if r1 = r2 then true
  else if c1 = c2 then true
  else if r1 / 3 = r2 / 3 ∧ c1 / 3 = c2 / 3 then true
  else false

/-- `combinations(arr, k)` from the source. -/
def combinations {α : Type} : List α → Nat → List (List α)
  | _, 0 => [[]]
  | [], _ + 1 => []
  | x :: xs, k + 1 => ((combinations xs k).map fun c => x :: c) ++ combinations xs (k + 1)

/-- First-occurrence deduplication (the JS `Map`/`Set` keyed by `r*9+c`). -/
def dedupList {α : Type} [DecidableEq α] (l : List α) : List α :=
  l.foldl (fun acc x => if x ∈ acc then acc else acc ++ [x]) []

/-- Level 1 — `applyNakedSingles`. -/
def applyNakedSingles (st : GState) : GState × Bool :=
  (List.range 9).foldl (fun acc r =>
    (List.range 9).foldl (fun acc c =>
      if acc.1.board r c = 0 ∧ (acc.1.cands r c).card = 1 then
        ((placeCell acc.1 r c ((setToList (acc.1.cands r c)).headD 0)), true)
      else acc) acc) (st, false)

/-- Level 2 — `applyHiddenSingles` (note: the source does not re-check
that the found cell is still empty before writing to it). -/
def hsDigitStep (unit : List (Nat × Nat)) (acc : GState × Bool) (n : Nat) :
    GState × Bool :=
  let places := unit.filter fun p => n ∈ acc.1.cands p.1 p.2
  if places.length = 1 then
    let p := places.headD (0, 0)
    (placeCell acc.1 p.1 p.2 n, true)
  else acc

def applyHiddenSingles (st : GState) : GState × Bool :=
  getUnits.foldl (fun acc unit => digits.foldl (hsDigitStep unit) acc) (st, false)

/-- `findNakedSubset(cands, unit, size)` from the source. -/
def findNakedSubset (st : GState) (unit : List (Nat × Nat)) (size : Nat) :
    GState × Bool :=
  let cells := unit.filter fun p =>
    2 ≤ (st.cands p.1 p.2).card ∧ (st.cands p.1 p.2).card ≤ size
  if cells.length < size then (st, false)
  else
    (combinations cells size).foldl (fun acc combo =>
      let unionSet : Finset Nat := combo.foldl (fun u p => u ∪ acc.1.cands p.1 p.2) ∅
      if unionSet.card = size then
        unit.foldl (fun acc p =>
          if combo.any fun q => q.1 = p.1 ∧ q.2 = p.2 then acc
          else (setToList unionSet).foldl (fun acc v => delCand acc p.1 p.2 v) acc) acc
      else acc) (st, false)

/-- Level 3 — `applyNakedSubsets`. -/
def applyNakedSubsets (st : GState) : GState × Bool :=
  getUnits.foldl (fun acc unit =>
    let a2 := findNakedSubset acc.1 unit 2
    let a3 := findNakedSubset a2.1 unit 3
    (a3.1, acc.2 || a2.2 || a3.2)) (st, false)

/-- `findHiddenSubset(cands, unit, size)` from the source:
`candidateCells` maps each digit confined to 2..size cells of the unit to
those cells (computed once, from the state at entry). -/
def findHiddenSubset (st : GState) (unit : List (Nat × Nat)) (size : Nat) :
    GState × Bool :=
  let candidateCells : List (Nat × List (Nat × Nat)) :=
    digits.filterMap fun n =>
      let cells := unit.filter fun p => n ∈ st.cands p.1 p.2
      if 2 ≤ cells.length ∧ cells.length ≤ size then some (n, cells) else none
  let candidateKeys := candidateCells.map (·.1)
  if candidateKeys.length < size then (st, false)
  else
    (combinations candidateKeys size).foldl (fun acc combo =>
      let cellSet : List (Nat × Nat) := dedupList (combo.flatMap fun n =>
        (((candidateCells.find? fun e => e.1 = n).map (·.2)).getD []))
      if cellSet.length = size then
        cellSet.foldl (fun acc p =>
          (setToList (acc.1.cands p.1 p.2)).foldl (fun acc2 v =>
            if v ∈ combo then acc2 else delCand acc2 p.1 p.2 v) acc) acc
      else acc) (st, false)

/-- Level 3 — `applyHiddenSubsets`. -/
def applyHiddenSubsets (st : GState) : GState × Bool :=
  getUnits.foldl (fun acc unit =>
    let a2 := findHiddenSubset acc.1 unit 2
    let a3 := findHiddenSubset a2.1 unit 3
    (a3.1, acc.2 || a2.2 || a3.2)) (st, false)

/-- Level 4 — `applyPointingPairs` / box-line reduction. -/
def applyPointingPairs (st : GState) : GState × Bool :=
  let boxPart :=
    (List.range 3).foldl (fun acc br =>
      (List.range 3).foldl (fun acc bc =>
        let boxCells := (List.range 3).flatMap fun dr =>
          (List.range 3).map fun dc => (br * 3 + dr, bc * 3 + dc)
        digits.foldl (fun acc n =>
          let places := boxCells.filter fun p => n ∈ acc.1.cands p.1 p.2
          if places.length < 2 ∨ 3 < places.length then acc
          else
            let rows := dedupList (places.map (·.1))
            let cols := dedupList (places.map (·.2))
            let acc1 :=
              if rows.length = 1 then
                let row := rows.headD 0
                (List.range 9).foldl (fun acc c =>
                  if bc * 3 ≤ c ∧ c < bc * 3 + 3 then acc
                  else delCand acc row c n) acc
              else acc
            if cols.length = 1 then
              let col := cols.headD 0
              (List.range 9).foldl (fun acc r =>
                if br * 3 ≤ r ∧ r < br * 3 + 3 then acc
                else delCand acc r col n) acc1
            else acc1) acc) acc) (st, false)
  digits.foldl (fun acc n =>
    let acc :=
      (List.range 9).foldl (fun acc r =>
        let cols := (List.range 9).filter fun c => n ∈ acc.1.cands r c
        if cols.length < 2 ∨ 3 < cols.length then acc
        else
          let boxes := dedupList (cols.map (· / 3))
          if boxes.length = 1 then
            let bc := boxes.headD 0
            let br := r / 3
            (List.range 3).foldl (fun acc dr =>
              if br * 3 + dr = r then acc
              else (List.range 3).foldl (fun acc dc =>
                delCand acc (br * 3 + dr) (bc * 3 + dc) n) acc) acc
          else acc) acc
    (List.range 9).foldl (fun acc c =>
      let rows := (List.range 9).filter fun r => n ∈ acc.1.cands r c
      if rows.length < 2 ∨ 3 < rows.length then acc
      else
        let boxes := dedupList (rows.map (· / 3))
        if boxes.length = 1 then
          let br := boxes.headD 0
          let bc := c / 3
          (List.range 3).foldl (fun acc dr =>
            (List.range 3).foldl (fun acc dc =>
              if bc * 3 + dc = c then acc
              else delCand acc (br * 3 + dr) (bc * 3 + dc) n) acc) acc
        else acc) acc) boxPart

/-- `for (i...) for (j = i+1...)` as the list of ordered pairs. -/
def allPairs {α : Type} : List α → List (α × α)
  | [] => []
  | x :: xs => (xs.map fun y => (x, y)) ++ allPairs xs

/-- `for (i...) for (j = i+1...) for (k = j+1...)` as ordered triples. -/
def allTriples {α : Type} : List α → List (α × α × α)
  | [] => []
  | x :: xs => ((allPairs xs).map fun pq => (x, pq.1, pq.2)) ++ allTriples xs

/-- Level 5 — `applyXWing`.  The row (resp. column) positions are computed
once per digit from the state reached at that point, as in the source. -/
def applyXWing (st : GState) : GState × Bool :=
  digits.foldl (fun acc n =>
    let rowPositions := (List.range 9).filterMap fun r =>
      let cols := (List.range 9).filter fun c => n ∈ acc.1.cands r c
      if cols.length = 2 then some (r, cols) else none
    let acc1 := (allPairs rowPositions).foldl (fun acc pr =>
      if pr.1.2.headD 0 = pr.2.2.headD 0 ∧ pr.1.2.getD 1 0 = pr.2.2.getD 1 0 then
        let c1 := pr.1.2.headD 0
        let c2 := pr.1.2.getD 1 0
        (List.range 9).foldl (fun acc r =>
          if r = pr.1.1 ∨ r = pr.2.1 then acc
          else delCand (delCand acc r c1 n) r c2 n) acc
      else acc) acc
    let colPositions := (List.range 9).filterMap fun c =>
      let rows := (List.range 9).filter fun r => n ∈ acc1.1.cands r c
      if rows.length = 2 then some (c, rows) else none
    (allPairs colPositions).foldl (fun acc pr =>
      if pr.1.2.headD 0 = pr.2.2.headD 0 ∧ pr.1.2.getD 1 0 = pr.2.2.getD 1 0 then
        let r1 := pr.1.2.headD 0
        let r2 := pr.1.2.getD 1 0
        (List.range 9).foldl (fun acc c =>
          if c = pr.1.1 ∨ c = pr.2.1 then acc
          else delCand (delCand acc r1 c n) r2 c n) acc
      else acc) acc1) (st, false)

/-- `countSetBits` from the source (the 32-bit popcount bit trick; the JS
`>> 24` coerces to int32 first, i.e. reduces the product mod 2^32 — for
the 9-bit masks used here the value stays below 2^31, so the sign never
shows). -/
def countSetBits (n : Nat) : Nat :=
  let n1 := n - ((n >>> 1) &&& 0x55555555)
  let n2 := (n1 &&& 0x33333333) + ((n1 >>> 2) &&& 0x33333333)
  (((n2 + (n2 >>> 4)) &&& 0xF0F0F0F) * 0x1010101 % 4294967296) >>> 24

/-- `eliminateFromColumns(cands, val, colMask, exceptRows)`. -/
def eliminateFromColumns (st : GState) (val colMask : Nat)
    (exceptRows : List Nat) : GState × Bool :=
  (List.range 9).foldl (fun acc c =>
    if colMask &&& (1 <<< c) ≠ 0 then
      (List.range 9).foldl (fun acc r =>
        if exceptRows.contains r then acc else delCand acc r c val) acc
    else acc) (st, false)

/-- `eliminateFromRows(cands, val, rowMask, exceptCols)`. -/
def eliminateFromRows (st : GState) (val rowMask : Nat)
    (exceptCols : List Nat) : GState × Bool :=
  (List.range 9).foldl (fun acc r =>
    if rowMask &&& (1 <<< r) ≠ 0 then
      (List.range 9).foldl (fun acc c =>
        if exceptCols.contains c then acc else delCand acc r c val) acc
    else acc) (st, false)

/-- Level 6 — `applySwordfish` (bitmask version from the source). -/
def applySwordfish (st : GState) : GState × Bool :=
  digits.foldl (fun acc n =>
    let rowMasks := (List.range 9).filterMap fun r =>
      let mask := (List.range 9).foldl (fun m c =>
        if n ∈ acc.1.cands r c then m ||| (1 <<< c) else m) 0
      if 2 ≤ countSetBits mask ∧ countSetBits mask ≤ 3 then some (r, mask) else none
    let acc1 := (allTriples rowMasks).foldl (fun acc tr =>
      let combined := tr.1.2 ||| tr.2.1.2 ||| tr.2.2.2
      if countSetBits combined = 3 then
        let e := eliminateFromColumns acc.1 n combined [tr.1.1, tr.2.1.1, tr.2.2.1]
        (e.1, acc.2 || e.2)
      else acc) acc
    let colMasks := (List.range 9).filterMap fun c =>
      let mask := (List.range 9).foldl (fun m r =>
        if n ∈ acc1.1.cands r c then m ||| (1 <<< r) else m) 0
      if 2 ≤ countSetBits mask ∧ countSetBits mask ≤ 3 then some (c, mask) else none
    (allTriples colMasks).foldl (fun acc tr =>
      let combined := tr.1.2 ||| tr.2.1.2 ||| tr.2.2.2
      if countSetBits combined = 3 then
        let e := eliminateFromRows acc.1 n combined [tr.1.1, tr.2.1.1, tr.2.2.1]
        (e.1, acc.2 || e.2)
      else acc) acc1) (st, false)

/-- Level 7 — `applyXYWing`. -/
def applyXYWing (st : GState) : GState × Bool :=
  (List.range 9).foldl (fun acc pr =>
    (List.range 9).foldl (fun acc pc =>
      if (acc.1.cands pr pc).card = 2 then
        let xy := setToList (acc.1.cands pr pc)
        let x := xy.headD 0
        let y := xy.getD 1 0
        let peers := getPeers pr pc
        let wingX : List (Nat × Nat × Nat) := peers.filterMap fun p =>
          if (acc.1.cands p.1 p.2).card = 2 then
            let w := setToList (acc.1.cands p.1 p.2)
            if x ∈ w ∧ ¬ y ∈ w then some (p.1, p.2, (w.filter (· ≠ x)).headD 0)
            else none
          else none
        let wingY : List (Nat × Nat × Nat) := peers.filterMap fun p =>
          if (acc.1.cands p.1 p.2).card = 2 then
            let w := setToList (acc.1.cands p.1 p.2)
            if y ∈ w ∧ ¬ x ∈ w then some (p.1, p.2, (w.filter (· ≠ y)).headD 0)
            else none
          else none
        wingX.foldl (fun acc wx =>
          wingY.foldl (fun acc wy =>
            if wx.2.2 ≠ wy.2.2 then acc
            else
              (getPeers wx.1 wx.2.1).foldl (fun acc p =>
                if ¬ wx.2.2 ∈ acc.1.cands p.1 p.2 then acc
                else if (p.1 = wx.1 ∧ p.2 = wx.2.1) ∨ (p.1 = wy.1 ∧ p.2 = wy.2.1) ∨
                    (p.1 = pr ∧ p.2 = pc) then acc
                else if isPeer p.1 p.2 wy.1 wy.2.1 then delCand acc p.1 p.2 wx.2.2
                else acc) acc) acc) acc
      else acc) acc) (st, false)

/-! ### Logic Solver driver -/

/-- The solver's technique table (level, function), in priority order. -/
def techList : List (Nat × (GState → GState × Bool)) :=
  [(1, applyNakedSingles), (2, applyHiddenSingles), (3, applyNakedSubsets),
   (3, applyHiddenSubsets), (4, applyPointingPairs), (5, applyXWing),
   (6, applySwordfish), (7, applyXYWing)]

/-- `techniqueNames` from the source. -/
def techniqueName : Nat → String
  | 1 => "Naked Single"
  | 2 => "Hidden Single"
  | 3 => "Naked/Hidden Subsets"
  | 4 => "Pointing Pairs"
  | 5 => "X-Wing"
  | 6 => "Swordfish"
  | _ => "XY-Wing"

/-- `Set.add` on the techniques-used set, preserving insertion order. -/
def insertUsed (l : List String) (s : String) : List String :=
  if s ∈ l then l else l ++ [s]

/-- One pass over the technique table: the first technique reporting
progress wins (`break`); `none` means the pass is stuck. -/
def runTechniques : List (Nat × (GState → GState × Bool)) → GState →
    GState × Option Nat
  | [], st => (st, none)
  | (lvl, fn) :: rest, st =>
    match fn st with
    | (st', true) => (st', some lvl)
    | (st', false) => runTechniques rest st'

/-- The `while (!stuck)` loop.  Every pass with progress strictly shrinks
the total number of candidates (each deletion removes one, each placement
clears a nonempty set), which is at most 9·81 = 729, so fuel 730 is never
exhausted. -/
def logicLoop : Nat → GState → Nat → List String → GState × Nat × List String
  | 0, st, maxLevel, used => (st, maxLevel, used)
  | fuel + 1, st, maxLevel, used =>
    match runTechniques techList st with
    | (st', some lvl) =>
      logicLoop fuel st' (max maxLevel lvl) (insertUsed used (techniqueName lvl))
    | (st', none) => (st', maxLevel, used)

/-- `solvePuzzleWithLogic(boardInput)` from the source. -/
def solvePuzzleWithLogic (b : Board) : AnalysisResult :=
  let out := logicLoop 730 { board := b, cands := getCandidates b } 0 []
  { solved := decide (∀ p ∈ allCells, out.1.board p.1 p.2 ≠ 0),
    maxLevel := out.2.1,
    techniquesUsed := out.2.2 }

/-! ### Puzzle generation -/

/-- The `{puzzle, solution, removed, analysis}` record of
`generatePuzzleAttempt`. -/
structure AttemptResult where
  puzzle : Board
  solution : Board
  removed : Nat
  analysis : AnalysisResult

/-- The symmetric-pair construction of `generatePuzzleAttempt`: walk the
shuffled coordinates, pairing `(r,c)` with `(8−r, 8−c)` (the centre cell
alone), skipping already-visited cells via the `visited` key set. -/
def buildPairs (coords : List (Nat × Nat)) : List (List (Nat × Nat)) :=
  (coords.foldl (fun (acc : List (List (Nat × Nat)) × Finset Nat) p =>
    let key := p.1 * 9 + p.2
    if key ∈ acc.2 then acc
    else
      let sr := 8 - p.1
      let sc := 8 - p.2
      let visited' := insert (sr * 9 + sc) (insert key acc.2)
      if p.1 = sr ∧ p.2 = sc then (acc.1 ++ [[(p.1, p.2)]], visited')
      else (acc.1 ++ [[(p.1, p.2), (sr, sc)]], visited')) ([], ∅)).1

/-- The removal loop of `generatePuzzleAttempt`: stop at `maxRemove`, skip
pairs that would overshoot `maxRemove + 1` or contain an already-blank
cell, keep a blanking only while the puzzle still has a unique solution
(otherwise restore the backups). -/
def removalLoop (cfg : DifficultyConfig) :
    Nat → List (List (Nat × Nat)) → Board → Nat → Board × Nat
  | 0, _pairs, puzzle, removed => (puzzle, removed)
  | fuel + 1, pairs, puzzle, removed =>
    if cfg.maxRemove ≤ removed then (puzzle, removed)
    else
      match pairs with
      | [] => (puzzle, removed)
      | pair :: rest =>
        if cfg.maxRemove + 1 < removed + pair.length then
          removalLoop cfg fuel rest puzzle removed
        else if pair.any fun p => puzzle p.1 p.2 = 0 then
          removalLoop cfg fuel rest puzzle removed
        else
          let puzzle' := pair.foldl (fun b p => setCell b p.1 p.2 0) puzzle
          if countSolutions puzzle' 2 = 1 then
            removalLoop cfg fuel rest puzzle' (removed + pair.length)
          else removalLoop cfg fuel rest puzzle removed

/-- `generatePuzzleAttempt(config)` from the source. -/
def generatePuzzleAttempt (cfg : DifficultyConfig) (rng : Nat → Nat) (t : Nat) :
    Option AttemptResult × Nat :=
  let s := generateSolution rng t
  let sh := shuffleArray rng allCells s.2
  let out := removalLoop cfg 82 (buildPairs sh.1) s.1 0
  if out.2 < cfg.minRemove then (none, sh.2)
  else (some { puzzle := out.1, solution := s.1, removed := out.2,
               analysis := solvePuzzleWithLogic out.1 }, sh.2)

/-- The `{puzzle, solution, analysis}` record of `generatePuzzleSync`. -/
structure SyncResult where
  puzzle : Board
  solution : Board
  analysis : AnalysisResult

/-- `const score = analysis.maxLevel <= config.maxLevel ?
analysis.maxLevel : -1` from the retry loop. -/
def attemptScore (cfg : DifficultyConfig) (a : AnalysisResult) : Int :=
  if a.maxLevel ≤ cfg.maxLevel then (a.maxLevel : Int) else -1

/-- The retry loop of `generatePuzzleSync`: up to 1000 attempts within the
45-second budget (`clock` is the stream of `Date.now()` readings, `clock 0`
the start time, `clock (k+1)` the reading before attempt `k`); returns the
first attempt matching the difficulty, else the best-scoring attempt seen,
threading the rng counter. -/
def syncLoop (cfg : DifficultyConfig) (rng clock : Nat → Nat) :
    Nat → Nat → Nat → Option AttemptResult → Int →
      Option AttemptResult × Option AttemptResult × Nat
  | 0, _k, t, best, _ => (none, best, t)
  | n + 1, k, t, best, bestScore =>
    if 45000 < clock (k + 1) - clock 0 then (none, best, t)
    else
      match generatePuzzleAttempt cfg rng t with
      | (none, t') => syncLoop cfg rng clock n (k + 1) t' best bestScore
      | (some res, t') =>
        if res.analysis.solved = false then
          syncLoop cfg rng clock n (k + 1) t' best bestScore
        else if isLevelMatch res.analysis cfg then (some res, best, t')
        else if bestScore < attemptScore cfg res.analysis then
          syncLoop cfg rng clock n (k + 1) t' (some res) (attemptScore cfg res.analysis)
        else syncLoop cfg rng clock n (k + 1) t' best bestScore

/-- The last-resort removal loop of `generatePuzzleSync`: blank single
cells (no symmetry) while uniqueness holds, until `minRemove` removals. -/
def fallbackLoop (cfg : DifficultyConfig) :
    Nat → List (Nat × Nat) → Board → Nat → Board × Nat
  | 0, _positions, puzzle, removed => (puzzle, removed)
  | fuel + 1, positions, puzzle, removed =>
    if cfg.minRemove ≤ removed then (puzzle, removed)
    else
      match positions with
      | [] => (puzzle, removed)
      | p :: rest =>
        let puzzle' := setCell puzzle p.1 p.2 0
        if countSolutions puzzle' 2 = 1 then
          fallbackLoop cfg fuel rest puzzle' (removed + 1)
        else fallbackLoop cfg fuel rest puzzle removed

/-- `generatePuzzleSync(config)` from the source: first match → best
effort → naive fallback reported as `{solved: false, maxLevel: 0,
techniquesUsed: []}`. -/
def generatePuzzleSync (cfg : DifficultyConfig) (rng clock : Nat → Nat) :
    SyncResult :=
  match syncLoop cfg rng clock 1000 0 0 none (-1) with
  | (some res, _, _) =>
    { puzzle := res.puzzle, solution := res.solution, analysis := res.analysis }
  | (none, some best, _) =>
    { puzzle := best.puzzle, solution := best.solution, analysis := best.analysis }
  | (none, none, t) =>
    let s := generateSolution rng t
    let sh := shuffleArray rng allCells s.2
    let out := fallbackLoop cfg 82 sh.1 s.1 0
    { puzzle := out.1, solution := s.1,
      analysis := { solved := false, maxLevel := 0, techniquesUsed := [] } }

/-! ### Invariants of the removal loops -/

/-- A full board is counted as its own single completion by the search
(no empty cell: the counter is bumped once and the search ends). -/
theorem countSolutions_of_full (b : Board)
    (hfull : ∀ r c, r < 9 → c < 9 → b r c ≠ 0) : countSolutions b 2 = 1 := by
  have h : findEmptyCell b = none := (findEmptyCell_eq_none_iff b).mpr hfull
  show solveCount 2 82 b 0 = 1
  rw [show (82 : Nat) = 81 + 1 from rfl, solveCount, if_neg (by omega), h]

/-- The symmetric removal loop preserves `countSolutions = 1`: a blanking
is kept only when the check succeeds, otherwise the old board is kept. -/
theorem removalLoop_unique (cfg : DifficultyConfig) :
    ∀ fuel pairs puzzle removed, countSolutions puzzle 2 = 1 →
      countSolutions (removalLoop cfg fuel pairs puzzle removed).1 2 = 1 := by
  intro fuel
  induction fuel with
  | zero => intro pairs puzzle removed h; exact h
  | succ fuel ih =>
    intro pairs puzzle removed h
    match pairs with
    | [] =>
      rw [removalLoop]
      split <;> exact h
    | pair :: rest =>
      rw [removalLoop]
      split
      · exact h
      · split
        · exact ih rest puzzle removed h
        · split
          · exact ih rest puzzle removed h
          · dsimp only
            split
            · rename_i hone
              exact ih rest _ _ hone
            · exact ih rest puzzle removed h

/-- The naive fallback loop preserves `countSolutions = 1` likewise. -/
theorem fallbackLoop_unique (cfg : DifficultyConfig) :
    ∀ fuel positions puzzle removed, countSolutions puzzle 2 = 1 →
      countSolutions (fallbackLoop cfg fuel positions puzzle removed).1 2 = 1 := by
  intro fuel
  induction fuel with
  | zero => intro positions puzzle removed h; exact h
  | succ fuel ih =>
    intro positions puzzle removed h
    match positions with
    | [] =>
      rw [fallbackLoop]
      split <;> exact h
    | p :: rest =>
      rw [fallbackLoop]
      split
      · exact h
      · dsimp only
        split
        · rename_i hone
          exact ih rest _ _ hone
        · exact ih rest puzzle removed h

/-- `puzzle` agrees with `solution` on every cell it fills. -/
def AgreesWith (puzzle solution : Board) : Prop :=
  ∀ r c, puzzle r c = 0 ∨ puzzle r c = solution r c

theorem agreesWith_setZero {puzzle sol : Board} (h : AgreesWith puzzle sol)
    (r c : Nat) : AgreesWith (setCell puzzle r c 0) sol := by
  intro r' c'
  rw [setCell]
  split
  · exact Or.inl rfl
  · exact h r' c'

theorem agreesWith_blankPair {sol : Board} (pair : List (Nat × Nat)) :
    ∀ puzzle, AgreesWith puzzle sol →
      AgreesWith (pair.foldl (fun b p => setCell b p.1 p.2 0) puzzle) sol := by
  induction pair with
  | nil => intro puzzle h; exact h
  | cons p rest ih => intro puzzle h; exact ih _ (agreesWith_setZero h p.1 p.2)

theorem removalLoop_agrees (cfg : DifficultyConfig) (sol : Board) :
    ∀ fuel pairs puzzle removed, AgreesWith puzzle sol →
      AgreesWith (removalLoop cfg fuel pairs puzzle removed).1 sol := by
  intro fuel
  induction fuel with
  | zero => intro pairs puzzle removed h; exact h
  | succ fuel ih =>
    intro pairs puzzle removed h
    match pairs with
    | [] =>
      rw [removalLoop]
      split <;> exact h
    | pair :: rest =>
      rw [removalLoop]
      split
      · exact h
      · split
        · exact ih rest puzzle removed h
        · split
          · exact ih rest puzzle removed h
          · dsimp only
            split
            · exact ih rest _ _ (agreesWith_blankPair pair puzzle h)
            · exact ih rest puzzle removed h

theorem fallbackLoop_agrees (cfg : DifficultyConfig) (sol : Board) :
    ∀ fuel positions puzzle removed, AgreesWith puzzle sol →
      AgreesWith (fallbackLoop cfg fuel positions puzzle removed).1 sol := by
  intro fuel
  induction fuel with
  | zero => intro positions puzzle removed h; exact h
  | succ fuel ih =>
    intro positions puzzle removed h
    match positions with
    | [] =>
      rw [fallbackLoop]
      split <;> exact h
    | p :: rest =>
      rw [fallbackLoop]
      split
      · exact h
      · dsimp only
        split
        · exact ih rest _ _ (agreesWith_setZero h p.1 p.2)
        · exact ih rest puzzle removed h

/-- Every property of the attempts' results carries over to the result
the retry loop returns (first match or best effort). -/
theorem syncLoop_results (cfg : DifficultyConfig) (rng clock : Nat → Nat)
    (P : AttemptResult → Prop)
    (hP : ∀ t res, (generatePuzzleAttempt cfg rng t).1 = some res → P res) :
    ∀ n k t best bestScore, (∀ b, best = some b → P b) →
      (∀ r, (syncLoop cfg rng clock n k t best bestScore).1 = some r → P r) ∧
      (∀ b, (syncLoop cfg rng clock n k t best bestScore).2.1 = some b → P b) := by
  intro n
  induction n with
  | zero =>
    intro k t best bestScore hbest
    rw [syncLoop]
    exact ⟨fun r hr => Option.noConfusion hr, hbest⟩
  | succ n ih =>
    intro k t best bestScore hbest
    rw [syncLoop]
    split
    · exact ⟨fun r hr => Option.noConfusion hr, hbest⟩
    · split
      · rename_i heq
        exact ih (k + 1) _ best bestScore hbest
      · rename_i res t' heq
        have hres : P res := hP t res (by rw [heq])
        split
        · exact ih (k + 1) t' best bestScore hbest
        · split
          · refine ⟨fun r hr => ?_, hbest⟩
            cases hr
            exact hres
          · split
            · exact ih (k + 1) t' (some res) _
                (fun b hb => by cases hb; exact hres)
            · exact ih (k + 1) t' best bestScore hbest

/-- The policy invariant of the retry loop: an early return matches the
difficulty; the best-effort result is solved and within the target tier. -/
theorem syncLoop_policy (cfg : DifficultyConfig) (rng clock : Nat → Nat) :
    ∀ n k t best bestScore, (-1 : Int) ≤ bestScore →
      (∀ b, best = some b →
        b.analysis.solved = true ∧ b.analysis.maxLevel ≤ cfg.maxLevel) →
      (∀ r, (syncLoop cfg rng clock n k t best bestScore).1 = some r →
        isLevelMatch r.analysis cfg = true) ∧
      (∀ b, (syncLoop cfg rng clock n k t best bestScore).2.1 = some b →
        b.analysis.solved = true ∧ b.analysis.maxLevel ≤ cfg.maxLevel) := by
  intro n
  induction n with
  | zero =>
    intro k t best bestScore _ hbest
    rw [syncLoop]
    exact ⟨fun r hr => Option.noConfusion hr, hbest⟩
  | succ n ih =>
    intro k t best bestScore hscore hbest
    rw [syncLoop]
    split
    · exact ⟨fun r hr => Option.noConfusion hr, hbest⟩
    · split
      · exact ih (k + 1) _ best bestScore hscore hbest
      · rename_i res t' heq
        split
        · exact ih (k + 1) t' best bestScore hscore hbest
        · rename_i hsolved
          split
          · rename_i hmatch
            refine ⟨fun r hr => ?_, hbest⟩
            cases hr
            exact hmatch
          · split
            · rename_i hlt
              have hs0 : (0 : Int) ≤ attemptScore cfg res.analysis := by omega
              refine ih (k + 1) t' (some res) _ (by omega) ?_
              intro b hb
              cases hb
              constructor
              · cases hsv : res.analysis.solved
                · exact absurd hsv hsolved
                · rfl
              · by_cases hml : res.analysis.maxLevel ≤ cfg.maxLevel
                · exact hml
                · rw [attemptScore, if_neg hml] at hs0
                  omega
            · exact ih (k + 1) t' best bestScore hscore hbest

/-! ### Claims C1, C10, C3, C4 -/

/-- **C1.** Every puzzle contained in a non-null result of
`generatePuzzleAttempt`, and every puzzle in the record returned by
`generatePuzzleSync` (best-effort and fallback paths included), has
exactly one completion: `countSolutions(puzzle, 2) === 1`. -/
theorem c1_generated_puzzles_unique :
    (∀ cfg rng t res, (generatePuzzleAttempt cfg rng t).1 = some res →
      countSolutions res.puzzle 2 = 1) ∧
    (∀ cfg rng clock,
      countSolutions (generatePuzzleSync cfg rng clock).puzzle 2 = 1) := by
  have hattempt : ∀ cfg (rng : Nat → Nat) t res,
      (generatePuzzleAttempt cfg rng t).1 = some res →
      countSolutions res.puzzle 2 = 1 := by
    intro cfg rng t res h
    have h1 : countSolutions (generateSolution rng t).1 2 = 1 :=
      countSolutions_of_full _ (generateSolution_props rng t).2
    unfold generatePuzzleAttempt at h
    dsimp only at h
    split at h
    · cases h
    · cases h
      exact removalLoop_unique cfg 82 _ _ 0 h1
  refine ⟨hattempt, ?_⟩
  intro cfg rng clock
  have hsync := syncLoop_results cfg rng clock
    (fun a => countSolutions a.puzzle 2 = 1)
    (fun t r hr => hattempt cfg rng t r hr) 1000 0 0 none (-1)
    (fun b hb => Option.noConfusion hb)
  unfold generatePuzzleSync
  split
  · rename_i res b x heq
    exact hsync.1 res (by rw [heq])
  · rename_i best x heq
    exact hsync.2 best (by rw [heq])
  · rename_i t heq
    dsimp only
    apply fallbackLoop_unique
    exact countSolutions_of_full _ (generateSolution_props rng t).2

/-- The canonical full grid, written as the value `tval` of the flat cell
index, and a random stream under which `fillBoard` fills exactly that grid
with no backtracking (the shuffle at cell `s` puts `tval s` first). -/
def tval (s : Nat) : Nat := (s / 9 * 3 + s / 9 / 3 + s % 9) % 9 + 1

/-- A concrete deterministic random stream (one possible outcome of
`Math.random()`): during the 81 shuffles of the initial fill it steers the
Fisher–Yates swaps so that cell `s` tries `tval s` first; afterwards it is
identically 0. -/
def rngW : Nat → Nat := fun t =>
  if t < 648 then
    let i := 8 - t % 8
    let v := tval (t / 8)
    if 2 ≤ v ∧ i = v - 1 then 0 else i
  else 0

/-- Witness for C1 at a concrete input (the `generatePuzzleSync` part,
whose statement is hypothesis-free, instantiated at the stream `rngW` and
a constant clock). -/
theorem c1_generated_puzzles_unique_witness :
    countSolutions (generatePuzzleSync ⟨0, 0, 7⟩ rngW (fun _ => 0)).puzzle 2 = 1 :=
  c1_generated_puzzles_unique.2 ⟨0, 0, 7⟩ rngW (fun _ => 0)

set_option maxHeartbeats 1600000 in
/-- **C10.** Every non-null attempt result and every `generatePuzzleSync`
result has `puzzle[r][c]` either 0 or equal to `solution[r][c]`; moreover
the returned solution is a full consistent grid, hence a completion of the
returned puzzle. -/
theorem c10_puzzle_agrees_solution :
    (∀ cfg rng t res, (generatePuzzleAttempt cfg rng t).1 = some res →
      (∀ r c, r < 9 → c < 9 →
        res.puzzle r c = 0 ∨ res.puzzle r c = res.solution r c) ∧
      Consistent res.solution ∧
      (∀ r c, r < 9 → c < 9 → res.solution r c ≠ 0)) ∧
    (∀ cfg rng clock,
      (∀ r c, r < 9 → c < 9 →
        (generatePuzzleSync cfg rng clock).puzzle r c = 0 ∨
        (generatePuzzleSync cfg rng clock).puzzle r c =
          (generatePuzzleSync cfg rng clock).solution r c) ∧
      Consistent (generatePuzzleSync cfg rng clock).solution ∧
      (∀ r c, r < 9 → c < 9 →
        (generatePuzzleSync cfg rng clock).solution r c ≠ 0)) := by
  have hattempt : ∀ cfg (rng : Nat → Nat) t res,
      (generatePuzzleAttempt cfg rng t).1 = some res →
      (∀ r c, r < 9 → c < 9 →
        res.puzzle r c = 0 ∨ res.puzzle r c = res.solution r c) ∧
      Consistent res.solution ∧
      (∀ r c, r < 9 → c < 9 → res.solution r c ≠ 0) := by
    intro cfg rng t res h
    obtain ⟨hcons, hfull⟩ := generateSolution_props rng t
    unfold generatePuzzleAttempt at h
    dsimp only at h
    split at h
    · cases h
    · cases h
      refine ⟨?_, hcons, hfull⟩
      intro r c _ _
      exact removalLoop_agrees cfg _ 82 _ _ 0 (fun _ _ => Or.inr rfl) r c
  refine ⟨hattempt, ?_⟩
  intro cfg rng clock
  have hsync := syncLoop_results cfg rng clock
    (fun a => (∀ r c, r < 9 → c < 9 →
        a.puzzle r c = 0 ∨ a.puzzle r c = a.solution r c) ∧
      Consistent a.solution ∧ (∀ r c, r < 9 → c < 9 → a.solution r c ≠ 0))
    (fun t r hr => hattempt cfg rng t r hr) 1000 0 0 none (-1)
    (fun b hb => Option.noConfusion hb)
  unfold generatePuzzleSync
  split
  · rename_i res b x heq
    exact hsync.1 res (by rw [heq])
  · rename_i best x heq
    exact hsync.2 best (by rw [heq])
  · rename_i t heq
    obtain ⟨hcons, hfull⟩ := generateSolution_props rng t
    dsimp only
    refine ⟨?_, hcons, hfull⟩
    intro r c _ _
    exact fallbackLoop_agrees cfg _ 82 _ _ 0 (fun _ _ => Or.inr rfl) r c

/-- Witness for C10 at a concrete input (the `generatePuzzleSync` part,
hypothesis-free, instantiated at cell (0,0)). -/
theorem c10_puzzle_agrees_solution_witness :
    (generatePuzzleSync ⟨0, 0, 5⟩ rngW (fun _ => 0)).puzzle 0 0 = 0 ∨
    (generatePuzzleSync ⟨0, 0, 5⟩ rngW (fun _ => 0)).puzzle 0 0 =
      (generatePuzzleSync ⟨0, 0, 5⟩ rngW (fun _ => 0)).solution 0 0 :=
  (c10_puzzle_agrees_solution.2 ⟨0, 0, 5⟩ rngW (fun _ => 0)).1 0 0
    (by decide) (by decide)

/-- **C3.** `generatePuzzleSync(config)` always returns a
`{puzzle, solution, analysis}` record (it is a total function) and its
analysis witnesses the degradation ladder: either it matches the requested
difficulty, or it is the best-effort result (solved, within the target
tier), or it is the naive fallback reported as tier 0 (`solved: false,
maxLevel: 0, techniquesUsed: []`). -/
theorem c3_sync_degradation_ladder (cfg : DifficultyConfig)
    (rng clock : Nat → Nat) :
    isLevelMatch (generatePuzzleSync cfg rng clock).analysis cfg = true ∨
    ((generatePuzzleSync cfg rng clock).analysis.solved = true ∧
      (generatePuzzleSync cfg rng clock).analysis.maxLevel ≤ cfg.maxLevel) ∨
    ((generatePuzzleSync cfg rng clock).analysis.solved = false ∧
      (generatePuzzleSync cfg rng clock).analysis.maxLevel = 0 ∧
      (generatePuzzleSync cfg rng clock).analysis.techniquesUsed = []) := by
  have hpolicy := syncLoop_policy cfg rng clock 1000 0 0 none (-1)
    (by omega) (fun b hb => Option.noConfusion hb)
  unfold generatePuzzleSync
  split
  · rename_i res b x heq
    exact Or.inl (hpolicy.1 res (by rw [heq]))
  · rename_i best x heq
    exact Or.inr (Or.inl (hpolicy.2 best (by rw [heq])))
  · exact Or.inr (Or.inr ⟨rfl, rfl, rfl⟩)

/-- **C4 (supporting theorem for the code bug).** With
`{minRemove: 0, maxRemove: 1}` and the concrete stream `rngW`, the dead
overshoot guard (`removed + pair.length > config.maxRemove + 1` can never
hold when `removed < maxRemove`) lets the loop blank a symmetric pair of
two cells, so the attempt returns `removed = 2 > maxRemove = 1` — the
comment "Would removing this pair exceed maxRemove?" notwithstanding. -/
theorem c4_maxRemove_overshoot :
    ((generatePuzzleAttempt ⟨0, 1, 7⟩ rngW 0).1.map fun r => r.removed)
      = some 2 := by
  decide

/-! ### C8: the techniques only narrow the state -/

/-- The candidate-engine invariant the spec's data model states: "empty
for filled cells". -/
def CandInv (st : GState) : Prop := ∀ r c, st.board r c ≠ 0 → st.cands r c = ∅

/-- `st'` only narrows `st`: filled cells keep their digits, a value
changes only from 0, and every candidate set shrinks. -/
def Narrows (st st' : GState) : Prop :=
  (∀ r c, st.board r c ≠ 0 → st'.board r c = st.board r c) ∧
  (∀ r c, st'.board r c ≠ st.board r c → st.board r c = 0) ∧
  (∀ r c, st'.cands r c ⊆ st.cands r c)

theorem narrows_mk {st st' : GState}
    (h1 : ∀ r c, st.board r c ≠ 0 → st'.board r c = st.board r c)
    (h2 : ∀ r c, st'.cands r c ⊆ st.cands r c) : Narrows st st' := by
  refine ⟨h1, ?_, h2⟩
  intro r c hne
  by_contra h0
  exact hne (h1 r c h0)

theorem narrows_refl (st : GState) : Narrows st st :=
  narrows_mk (fun _ _ _ => rfl) (fun _ _ => subset_rfl)

theorem narrows_trans {a b c : GState} (hab : Narrows a b) (hbc : Narrows b c) :
    Narrows a c := by
  apply narrows_mk
  · intro r cc h
    have h1 := hab.1 r cc h
    have h2 := hbc.1 r cc (h1.symm ▸ h)
    rw [h2, h1]
  · intro r cc
    exact (hbc.2.2 r cc).trans (hab.2.2 r cc)

/-- Narrowing together with preservation of the candidate invariant,
threaded through every mutation a technique performs. -/
def Mono (st st' : GState) : Prop := CandInv st → Narrows st st' ∧ CandInv st'

theorem mono_refl (st : GState) : Mono st st := fun h => ⟨narrows_refl st, h⟩

theorem mono_trans {a b c : GState} (hab : Mono a b) (hbc : Mono b c) :
    Mono a c := fun hinv =>
  have h1 := hab hinv
  have h2 := hbc h1.2
  ⟨narrows_trans h1.1 h2.1, h2.2⟩

theorem mono_delCand (acc : GState × Bool) (r c v : Nat) :
    Mono acc.1 (delCand acc r c v).1 := by
  intro hinv
  unfold delCand
  split
  · rename_i hv
    constructor
    · apply narrows_mk
      · intro r' c' _
        rfl
      · intro r' c'
        show updCands acc.1.cands r c _ r' c' ⊆ acc.1.cands r' c'
        rw [updCands]
        split
        · rename_i h
          obtain ⟨rfl, rfl⟩ := h
          exact Finset.erase_subset _ _
        · exact subset_rfl
    · intro r' c' hb
      show updCands acc.1.cands r c _ r' c' = ∅
      rw [updCands]
      split
      · rename_i h
        obtain ⟨rfl, rfl⟩ := h
        rw [hinv r' c' hb] at hv
        exact absurd hv (Finset.not_mem_empty v)
      · exact hinv r' c' hb
  · exact ⟨narrows_refl _, hinv⟩

theorem mono_placeCell (st : GState) (r c v : Nat) (h0 : st.board r c = 0) :
    Mono st (placeCell st r c v) := by
  intro hinv
  constructor
  · apply narrows_mk
    · intro r' c' hne
      show setCell st.board r c v r' c' = st.board r' c'
      rw [setCell]
      split
      · rename_i h
        obtain ⟨rfl, rfl⟩ := h
        exact absurd h0 hne
      · rfl
    · intro r' c'
      show eliminateFromPeers (updCands st.cands r c ∅) r c v r' c' ⊆ st.cands r' c'
      have hupd : updCands st.cands r c ∅ r' c' ⊆ st.cands r' c' := by
        rw [updCands]
        split
        · exact Finset.empty_subset _
        · exact subset_rfl
      rw [eliminateFromPeers]
      split
      · exact (Finset.erase_subset _ _).trans hupd
      · exact hupd
  · intro r' c' hb
    show eliminateFromPeers (updCands st.cands r c ∅) r c v r' c' = ∅
    by_cases hcell : r' = r ∧ c' = c
    · obtain ⟨rfl, rfl⟩ := hcell
      have hu : updCands st.cands r' c' ∅ r' c' = ∅ := by
        rw [updCands, if_pos ⟨rfl, rfl⟩]
      rw [eliminateFromPeers]
      split
      · rw [hu, Finset.erase_empty]
      · exact hu
    · have hb' : st.board r' c' ≠ 0 := by
        have hset : setCell st.board r c v r' c' = st.board r' c' := by
          rw [setCell, if_neg hcell]
        exact fun h => hb (by rw [show (placeCell st r c v).board r' c' =
          setCell st.board r c v r' c' from rfl, hset, h])
      have hu : updCands st.cands r c ∅ r' c' = ∅ := by
        rw [updCands]
        split
        · rfl
        · exact hinv r' c' hb'
      rw [eliminateFromPeers]
      split
      · rw [hu, Finset.erase_empty]
      · exact hu

theorem foldl_mono {β : Type} (f : GState × Bool → β → GState × Bool)
    (hf : ∀ acc x, Mono acc.1 (f acc x).1) :
    ∀ (l : List β) (acc : GState × Bool), Mono acc.1 (l.foldl f acc).1 := by
  intro l
  induction l with
  | nil => intro acc; exact mono_refl _
  | cons x xs ih => intro acc; exact mono_trans (hf acc x) (ih (f acc x))

theorem foldl_mono_fst {β : Type} (f : GState × Bool → β → GState × Bool)
    (hf : ∀ acc x, Mono acc.1 (f acc x).1) (l : List β) (st : GState) (b : Bool) :
    Mono st (l.foldl f (st, b)).1 := foldl_mono f hf l (st, b)

theorem mono_applyNakedSingles (st : GState) : Mono st (applyNakedSingles st).1 := by
  unfold applyNakedSingles
  apply foldl_mono_fst
  intro acc r
  apply foldl_mono
  intro acc2 c
  split
  · rename_i h
    exact mono_placeCell acc2.1 r c _ h.1
  · exact mono_refl _

theorem mono_applyHiddenSingles (st : GState) : Mono st (applyHiddenSingles st).1 := by
  unfold applyHiddenSingles
  apply foldl_mono_fst
  intro acc unit
  apply foldl_mono
  intro acc2 n
  unfold hsDigitStep
  dsimp only
  split
  · rename_i hlen
    intro hinv
    obtain ⟨q, hq⟩ := List.length_eq_one.mp hlen
    have hmem : (unit.filter fun p => n ∈ acc2.1.cands p.1 p.2).headD (0, 0)
        ∈ unit.filter fun p => n ∈ acc2.1.cands p.1 p.2 := by
      rw [hq]
      exact List.mem_singleton.mpr rfl
    have hn := (List.mem_filter.mp hmem).2
    rw [decide_eq_true_eq] at hn
    have h0 : acc2.1.board ((unit.filter fun p => n ∈ acc2.1.cands p.1 p.2).headD (0, 0)).1
        ((unit.filter fun p => n ∈ acc2.1.cands p.1 p.2).headD (0, 0)).2 = 0 := by
      by_contra hb
      rw [hinv _ _ hb] at hn
      exact absurd hn (Finset.not_mem_empty n)
    exact mono_placeCell _ _ _ _ h0 hinv
  · exact mono_refl _

theorem mono_findNakedSubset (st : GState) (unit : List (Nat × Nat)) (size : Nat) :
    Mono st (findNakedSubset st unit size).1 := by
  unfold findNakedSubset
  dsimp only
  split
  · exact mono_refl _
  · apply foldl_mono_fst
    intro acc combo
    dsimp only
    split
    · apply foldl_mono
      intro acc2 p
      split
      · exact mono_refl _
      · apply foldl_mono
        intro acc3 v
        exact mono_delCand _ _ _ _
    · exact mono_refl _

theorem mono_applyNakedSubsets (st : GState) : Mono st (applyNakedSubsets st).1 := by
  unfold applyNakedSubsets
  apply foldl_mono_fst
  intro acc unit
  dsimp only
  exact mono_trans (mono_findNakedSubset _ _ _) (mono_findNakedSubset _ _ _)

theorem mono_findHiddenSubset (st : GState) (unit : List (Nat × Nat)) (size : Nat) :
    Mono st (findHiddenSubset st unit size).1 := by
  unfold findHiddenSubset
  dsimp only
  split
  · exact mono_refl _
  · apply foldl_mono_fst
    intro acc combo
    dsimp only
    split
    · apply foldl_mono
      intro acc2 p
      apply foldl_mono
      intro acc3 v
      split
      · exact mono_refl _
      · exact mono_delCand _ _ _ _
    · exact mono_refl _

theorem mono_applyHiddenSubsets (st : GState) : Mono st (applyHiddenSubsets st).1 := by
  unfold applyHiddenSubsets
  apply foldl_mono_fst
  intro acc unit
  dsimp only
  exact mono_trans (mono_findHiddenSubset _ _ _) (mono_findHiddenSubset _ _ _)

theorem mono_applyPointingPairs (st : GState) : Mono st (applyPointingPairs st).1 := by
  unfold applyPointingPairs
  dsimp only
  refine mono_trans ?_ (foldl_mono _ ?_ _ _)
  · apply foldl_mono_fst
    intro acc br
    apply foldl_mono
    intro acc2 bc
    dsimp only
    apply foldl_mono
    intro acc3 n
    dsimp only
    split
    · exact mono_refl _
    · split
      · refine mono_trans ?_ (foldl_mono _ ?_ _ _)
        · split
          · apply foldl_mono
            intro acc4 c
            split
            · exact mono_refl _
            · exact mono_delCand _ _ _ _
          · exact mono_refl _
        · intro acc4 r
          split
          · exact mono_refl _
          · exact mono_delCand _ _ _ _
      · split
        · apply foldl_mono
          intro acc4 c
          split
          · exact mono_refl _
          · exact mono_delCand _ _ _ _
        · exact mono_refl _
  · intro acc n
    dsimp only
    refine mono_trans ?_ (foldl_mono _ ?_ _ _)
    · apply foldl_mono
      intro acc2 r
      dsimp only
      split
      · exact mono_refl _
      · split
        · apply foldl_mono
          intro acc3 dr
          split
          · exact mono_refl _
          · apply foldl_mono
            intro acc4 dc
            exact mono_delCand _ _ _ _
        · exact mono_refl _
    · intro acc2 c
      dsimp only
      split
      · exact mono_refl _
      · split
        · apply foldl_mono
          intro acc3 dr
          apply foldl_mono
          intro acc4 dc
          split
          · exact mono_refl _
          · exact mono_delCand _ _ _ _
        · exact mono_refl _

theorem mono_applyXWing (st : GState) : Mono st (applyXWing st).1 := by
  unfold applyXWing
  apply foldl_mono_fst
  intro acc n
  dsimp only
  refine mono_trans ?_ (foldl_mono _ ?_ _ _)
  · apply foldl_mono
    intro acc2 pr
    split
    · apply foldl_mono
      intro acc3 r
      split
      · exact mono_refl _
      · exact mono_trans (mono_delCand _ _ _ _) (mono_delCand _ _ _ _)
    · exact mono_refl _
  · intro acc2 pr
    split
    · apply foldl_mono
      intro acc3 c
      split
      · exact mono_refl _
      · exact mono_trans (mono_delCand _ _ _ _) (mono_delCand _ _ _ _)
    · exact mono_refl _

theorem mono_eliminateFromColumns (st : GState) (val colMask : Nat)
    (exceptRows : List Nat) : Mono st (eliminateFromColumns st val colMask exceptRows).1 := by
  unfold eliminateFromColumns
  apply foldl_mono_fst
  intro acc c
  split
  · apply foldl_mono
    intro acc2 r
    split
    · exact mono_refl _
    · exact mono_delCand _ _ _ _
  · exact mono_refl _

theorem mono_eliminateFromRows (st : GState) (val rowMask : Nat)
    (exceptCols : List Nat) : Mono st (eliminateFromRows st val rowMask exceptCols).1 := by
  unfold eliminateFromRows
  apply foldl_mono_fst
  intro acc r
  split
  · apply foldl_mono
    intro acc2 c
    split
    · exact mono_refl _
    · exact mono_delCand _ _ _ _
  · exact mono_refl _

theorem mono_applySwordfish (st : GState) : Mono st (applySwordfish st).1 := by
  unfold applySwordfish
  apply foldl_mono_fst
  intro acc n
  dsimp only
  refine mono_trans ?_ (foldl_mono _ ?_ _ _)
  · apply foldl_mono
    intro acc2 tr
    dsimp only
    split
    · exact mono_eliminateFromColumns _ _ _ _
    · exact mono_refl _
  · intro acc2 tr
    dsimp only
    split
    · exact mono_eliminateFromRows _ _ _ _
    · exact mono_refl _

theorem mono_applyXYWing (st : GState) : Mono st (applyXYWing st).1 := by
  unfold applyXYWing
  apply foldl_mono_fst
  intro acc pr
  apply foldl_mono
  intro acc2 pc
  split
  · dsimp only
    apply foldl_mono
    intro acc3 wx
    apply foldl_mono
    intro acc4 wy
    split
    · exact mono_refl _
    · apply foldl_mono
      intro acc5 p
      split
      · exact mono_refl _
      · split
        · exact mono_refl _
        · split
          · exact mono_delCand _ _ _ _
          · exact mono_refl _
  · exact mono_refl _

/-- The concrete state refuting C8 as stated: cell (0,0) is already
filled with 5 but still carries the candidate 3. -/
def stC8 : GState :=
  { board := fun r c => if r = 0 ∧ c = 0 then 5 else 0,
    cands := fun r c => if r = 0 ∧ c = 0 then {3} else ∅ }

/-- **C8 counterexample.** On a `(grid, candidates)` state where a filled
cell still carries a candidate, `applyHiddenSingles` overwrites the filled
cell: cell (0,0) holds 5 before the call and 3 after it — so "every cell
that held a digit before still holds that same digit" fails for an
arbitrary state. -/
theorem foldl_fixed {α β : Type} (f : α → β → α) (P : α → Prop) :
    ∀ (l : List β), (∀ acc x, x ∈ l → P acc → f acc x = acc) →
      ∀ acc, P acc → l.foldl f acc = acc := by
  intro l
  induction l with
  | nil => intro _ acc _; rfl
  | cons x xs ih =>
      intro hstep acc hP
      rw [List.foldl_cons, hstep acc x (List.mem_cons_self x xs) hP]
      exact ih (fun a y hy hp => hstep a y (List.mem_cons_of_mem x hy) hp) acc hP

theorem hsDigitStep_skip {unit : List (Nat × Nat)} {acc : GState × Bool} {n : Nat}
    (h : ¬ (unit.filter fun p => n ∈ acc.1.cands p.1 p.2).length = 1) :
    hsDigitStep unit acc n = acc := by
  unfold hsDigitStep
  dsimp only
  rw [if_neg h]

theorem hsDigitStep_fire {unit : List (Nat × Nat)} {acc : GState × Bool} {n : Nat}
    {p0 : Nat × Nat} (h : (unit.filter fun p => n ∈ acc.1.cands p.1 p.2) = [p0]) :
    hsDigitStep unit acc n = (placeCell acc.1 p0.1 p0.2 n, true) := by
  unfold hsDigitStep
  dsimp only
  rw [h]
  rfl

theorem hsDigitStep_stuck {acc : GState × Bool}
    (h : ∀ r c, acc.1.cands r c = ∅) (unit : List (Nat × Nat)) (n : Nat) :
    hsDigitStep unit acc n = acc := by
  apply hsDigitStep_skip
  have hfil : (unit.filter fun p => n ∈ acc.1.cands p.1 p.2) = [] := by
    rw [List.eq_nil_iff_forall_not_mem]
    intro a ha
    rw [List.mem_filter] at ha
    have h2 := ha.2
    rw [h a.1 a.2] at h2
    simp at h2
  rw [hfil]
  decide

theorem c8_counterexample :
    stC8.board 0 0 = 5 ∧ (applyHiddenSingles stC8).1.board 0 0 = 3 := by
  refine ⟨rfl, ?_⟩
  have hu : ∀ r' c', updCands stC8.cands 0 0 ∅ r' c' = ∅ := by
    intro r' c'
    rw [updCands]
    split
    · rfl
    · rename_i hne
      show (if r' = 0 ∧ c' = 0 then ({3} : Finset Nat) else ∅) = ∅
      rw [if_neg hne]
  have hP : ∀ r c, ((placeCell stC8 0 0 3, true) : GState × Bool).1.cands r c = ∅ := by
    intro r c
    show eliminateFromPeers (updCands stC8.cands 0 0 ∅) 0 0 3 r c = ∅
    rw [eliminateFromPeers]
    split
    · rw [hu r c, Finset.erase_empty]
    · exact hu r c
  have hhead : digits.foldl
      (hsDigitStep [(0,0),(0,1),(0,2),(0,3),(0,4),(0,5),(0,6),(0,7),(0,8)])
      (stC8, false) = (placeCell stC8 0 0 3, true) := by
    have h1 : hsDigitStep [(0,0),(0,1),(0,2),(0,3),(0,4),(0,5),(0,6),(0,7),(0,8)]
        (stC8, false) 1 = (stC8, false) := hsDigitStep_skip (by decide)
    have h2 : hsDigitStep [(0,0),(0,1),(0,2),(0,3),(0,4),(0,5),(0,6),(0,7),(0,8)]
        (stC8, false) 2 = (stC8, false) := hsDigitStep_skip (by decide)
    have hfil3 : ([(0,0),(0,1),(0,2),(0,3),(0,4),(0,5),(0,6),(0,7),(0,8)].filter
        fun p => 3 ∈ ((stC8, false) : GState × Bool).1.cands p.1 p.2) = [(0, 0)] := by
      decide
    have h3 : hsDigitStep [(0,0),(0,1),(0,2),(0,3),(0,4),(0,5),(0,6),(0,7),(0,8)]
        (stC8, false) 3 = (placeCell stC8 0 0 3, true) := hsDigitStep_fire hfil3
    show List.foldl
      (hsDigitStep [(0,0),(0,1),(0,2),(0,3),(0,4),(0,5),(0,6),(0,7),(0,8)])
      (stC8, false) [1, 2, 3, 4, 5, 6, 7, 8, 9] = (placeCell stC8 0 0 3, true)
    rw [List.foldl_cons, h1, List.foldl_cons, h2, List.foldl_cons, h3]
    exact foldl_fixed _ (fun a => ∀ r c, a.1.cands r c = ∅) [4, 5, 6, 7, 8, 9]
      (fun a x _ hp => hsDigitStep_stuck hp _ _) _ hP
  have hsplit : getUnits =
      [(0,0),(0,1),(0,2),(0,3),(0,4),(0,5),(0,6),(0,7),(0,8)] :: getUnits.tail := by
    decide
  unfold applyHiddenSingles
  rw [hsplit, List.foldl_cons]
  rw [hhead]
  rw [foldl_fixed (fun acc unit => digits.foldl (hsDigitStep unit) acc)
    (fun a => ∀ r c, a.1.cands r c = ∅) getUnits.tail
    (fun a u _ hp => foldl_fixed _ (fun x => ∀ r c, x.1.cands r c = ∅) digits
      (fun a2 n _ hp2 => hsDigitStep_stuck hp2 u n) a hp)
    (placeCell stC8 0 0 3, true) hP]
  decide

/-- **C8 (amended).** Under the candidate-engine invariant the spec's data
model guarantees (`cands[r][c]` is empty for filled cells), each of the
eight technique functions only narrows the state: filled cells keep their
digits, a cell's value changes only from 0, and every candidate set
shrinks. -/
theorem c8_techniques_narrow (st : GState) (hinv : CandInv st) :
    Narrows st (applyNakedSingles st).1 ∧ Narrows st (applyHiddenSingles st).1 ∧
    Narrows st (applyNakedSubsets st).1 ∧ Narrows st (applyHiddenSubsets st).1 ∧
    Narrows st (applyPointingPairs st).1 ∧ Narrows st (applyXWing st).1 ∧
    Narrows st (applySwordfish st).1 ∧ Narrows st (applyXYWing st).1 :=
  ⟨(mono_applyNakedSingles st hinv).1, (mono_applyHiddenSingles st hinv).1,
   (mono_applyNakedSubsets st hinv).1, (mono_applyHiddenSubsets st hinv).1,
   (mono_applyPointingPairs st hinv).1, (mono_applyXWing st hinv).1,
   (mono_applySwordfish st hinv).1, (mono_applyXYWing st hinv).1⟩

/-- Witness for C8 at a concrete state (all cells empty, no candidates):
the invariant holds and the narrowing conclusions follow. -/
theorem c8_techniques_narrow_witness :
    CandInv ⟨emptyBoard, fun _ _ => ∅⟩ ∧
    Narrows ⟨emptyBoard, fun _ _ => ∅⟩
      (applyNakedSingles ⟨emptyBoard, fun _ _ => ∅⟩).1 :=
  have hinv : CandInv ⟨emptyBoard, fun _ _ => ∅⟩ := fun _ _ h => absurd rfl h
  ⟨hinv, (c8_techniques_narrow ⟨emptyBoard, fun _ _ => ∅⟩ hinv).1⟩

/-! ### C9: hidden subsets -/

theorem map_fst_filterMap_guard {γ : Type} (P : Nat → Prop) [DecidablePred P]
    (g : Nat → γ) :
    ∀ l : List Nat,
      ((l.filterMap fun n => if P n then some (n, g n) else none).map (·.1)) =
        l.filter fun n => P n := by
  intro l
  induction l with
  | nil => rfl
  | cons x xs ih =>
      by_cases hx : P x
      · simp [List.filterMap_cons, hx, ih]
      · simp [List.filterMap_cons, hx, ih]

theorem find?_filterMap_guard {γ : Type} (P : Nat → Prop) [DecidablePred P]
    (g : Nat → γ) :
    ∀ (l : List Nat) (n : Nat), n ∈ l → P n →
      ((l.filterMap fun m => if P m then some (m, g m) else none).find?
        fun e => e.1 = n) = some (n, g n) := by
  intro l
  induction l with
  | nil => intro n hn _; exact absurd hn (List.not_mem_nil n)
  | cons x xs ih =>
      intro n hn hP
      by_cases hxn : x = n
      · subst hxn
        simp [List.filterMap_cons, hP, List.find?_cons]
      · have hn' : n ∈ xs := by
          rcases List.mem_cons.mp hn with h | h
          · exact absurd h.symm hxn
          · exact h
        by_cases hx : P x
        · rw [List.filterMap_cons, if_pos hx]
          rw [List.find?_cons]
          have : ((x, g x).1 = n) = False := by
            simp [hxn]
          simp only [this]
          simp only [decide_False]
          exact ih n hn' hP
        · rw [List.filterMap_cons, if_neg hx]
          exact ih n hn' hP

theorem flatMap_congr {α β : Type} (f g : α → List β) :
    ∀ l : List α, (∀ x ∈ l, f x = g x) → l.flatMap f = l.flatMap g := by
  intro l
  induction l with
  | nil => intro _; rfl
  | cons x xs ih =>
      intro h
      rw [List.flatMap_cons, List.flatMap_cons, h x (List.mem_cons_self x xs),
        ih (fun y hy => h y (List.mem_cons_of_mem x hy))]

theorem sorted_subset_sublist :
    ∀ (l s : List Nat), s.Sorted (· < ·) → l.Sorted (· < ·) →
      (∀ x ∈ s, x ∈ l) → s.Sublist l := by
  intro l
  induction l with
  | nil =>
      intro s _ _ hsub
      cases s with
      | nil => exact List.Sublist.refl _
      | cons a as => exact absurd (hsub a (List.mem_cons_self a as)) (List.not_mem_nil a)
  | cons y ys ih =>
      intro s hs hl hsub
      cases s with
      | nil => exact List.nil_sublist _
      | cons x xs =>
          have hsx := (List.sorted_cons.mp hs).1
          have hsy := (List.sorted_cons.mp hl).1
          by_cases hxy : x = y
          · subst hxy
            apply List.Sublist.cons₂
            apply ih xs (List.sorted_cons.mp hs).2 (List.sorted_cons.mp hl).2
            intro z hz
            have hzl := hsub z (List.mem_cons_of_mem x hz)
            rcases List.mem_cons.mp hzl with hzy | hzys
            · exact absurd (hzy ▸ hsx z hz) (lt_irrefl _)
            · exact hzys
          · have hxys : x ∈ ys := by
              rcases List.mem_cons.mp (hsub x (List.mem_cons_self x xs)) with h | h
              · exact absurd h hxy
              · exact h
            apply List.Sublist.cons
            apply ih (x :: xs) hs (List.sorted_cons.mp hl).2
            intro z hz
            rcases List.mem_cons.mp (hsub z hz) with hzy | hzys
            · exfalso
              have hyx : y < x := hsy x hxys
              rcases List.mem_cons.mp hz with hzx | hzxs
              · exact hxy (hzx.symm.trans hzy)
              · exact lt_asymm (hzy ▸ hsx z hzxs) hyx
            · exact hzys

theorem sublist_mem_combinations {α : Type} :
    ∀ {s l : List α}, s.Sublist l → s ∈ combinations l s.length := by
  intro s l h
  induction h with
  | slnil => exact List.mem_singleton.mpr rfl
  | @cons l₁ l₂ a hsub ih =>
      cases l₁ with
      | nil => exact List.mem_singleton.mpr rfl
      | cons x xs =>
          show x :: xs ∈ combinations (a :: l₂) (xs.length + 1)
          rw [combinations]
          exact List.mem_append_right _ ih
  | @cons₂ l₁ l₂ a hsub ih =>
      show a :: l₁ ∈ combinations (a :: l₂) (l₁.length + 1)
      rw [combinations]
      exact List.mem_append_left _ (List.mem_map.mpr ⟨l₁, ih, rfl⟩)

/-! Candidate-shrinking and flag machinery. -/

def CandsLE (a b : GState) : Prop := ∀ r c, a.cands r c ⊆ b.cands r c

theorem candsLE_refl (a : GState) : CandsLE a a := fun _ _ => subset_rfl

theorem candsLE_trans {a b c : GState} (h1 : CandsLE a b) (h2 : CandsLE b c) :
    CandsLE a c := fun r cc => (h1 r cc).trans (h2 r cc)

theorem candsLE_delCand (acc : GState × Bool) (r c v : Nat) :
    CandsLE (delCand acc r c v).1 acc.1 := by
  intro r' c'
  unfold delCand
  split
  · show updCands acc.1.cands r c _ r' c' ⊆ _
    rw [updCands]
    split
    · rename_i h
      obtain ⟨rfl, rfl⟩ := h
      exact Finset.erase_subset _ _
    · exact subset_rfl
  · exact subset_rfl

theorem foldl_candsLE {β : Type} (f : GState × Bool → β → GState × Bool)
    (hf : ∀ acc x, CandsLE (f acc x).1 acc.1) :
    ∀ (l : List β) (acc : GState × Bool), CandsLE ((l.foldl f acc).1) acc.1 := by
  intro l
  induction l with
  | nil => intro acc; exact candsLE_refl _
  | cons x xs ih => intro acc; exact candsLE_trans (ih (f acc x)) (hf acc x)

theorem foldl_flag_mono {β : Type} (f : GState × Bool → β → GState × Bool)
    (hf : ∀ acc x, acc.2 = true → (f acc x).2 = true) :
    ∀ (l : List β) (acc : GState × Bool), acc.2 = true → (l.foldl f acc).2 = true := by
  intro l
  induction l with
  | nil => intro acc h; exact h
  | cons x xs ih => intro acc h; exact ih (f acc x) (hf acc x h)

theorem delCand_flag_mono (acc : GState × Bool) (r c v : Nat) :
    acc.2 = true → (delCand acc r c v).2 = true := by
  intro h
  unfold delCand
  split
  · rfl
  · exact h

theorem delCand_unchanged (acc : GState × Bool) (r c v : Nat) :
    (delCand acc r c v).2 = false → delCand acc r c v = acc := by
  unfold delCand
  split
  · intro h
    exact absurd h (by simp)
  · intro _
    rfl

theorem foldl_unchanged {β : Type} (f : GState × Bool → β → GState × Bool)
    (hmono : ∀ acc x, acc.2 = true → (f acc x).2 = true)
    (hunch : ∀ acc x, (f acc x).2 = false → f acc x = acc) :
    ∀ (l : List β) (acc : GState × Bool), (l.foldl f acc).2 = false →
      l.foldl f acc = acc := by
  intro l
  induction l with
  | nil => intro acc _; rfl
  | cons x xs ih =>
      intro acc hflag
      rw [List.foldl_cons] at hflag ⊢
      have hfx : (f acc x).2 = false := by
        cases hb : (f acc x).2
        · rfl
        · rw [foldl_flag_mono f hmono xs (f acc x) hb] at hflag
          exact hflag
      rw [hunch acc x hfx] at hflag ⊢
      exact ih acc hflag

theorem delCand_mem {acc : GState × Bool} {r c v w : Nat}
    (hw : w ∈ (delCand acc r c v).1.cands r c) :
    w ∈ acc.1.cands r c ∧ w ≠ v := by
  unfold delCand at hw
  split at hw
  · rename_i hv
    have hw2 : w ∈ updCands acc.1.cands r c ((acc.1.cands r c).erase v) r c := hw
    rw [updCands] at hw2
    rw [if_pos ⟨rfl, rfl⟩] at hw2
    exact ⟨Finset.mem_of_mem_erase hw2, Finset.ne_of_mem_erase hw2⟩
  · rename_i hv
    exact ⟨hw, fun he => hv (he ▸ hw)⟩

theorem inner_fold_subset (G : Finset Nat) (p : Nat × Nat) :
    ∀ (l : List Nat) (acc : GState × Bool),
      (∀ w ∈ acc.1.cands p.1 p.2, w ∈ G ∨ w ∈ l) →
      ((l.foldl (fun acc2 v => if v ∈ G.sort (· ≤ ·) then acc2
        else delCand acc2 p.1 p.2 v) acc).1.cands p.1 p.2) ⊆ G := by
  intro l
  induction l with
  | nil =>
      intro acc h w hw
      rcases h w hw with hG | hmem
      · exact hG
      · exact absurd hmem (List.not_mem_nil w)
  | cons v vs ih =>
      intro acc h
      rw [List.foldl_cons]
      apply ih
      intro w hw
      by_cases hv : v ∈ G.sort (· ≤ ·)
      · rw [if_pos hv] at hw
        rcases h w hw with hG | hmem
        · exact Or.inl hG
        · rcases List.mem_cons.mp hmem with rfl | h2
          · exact Or.inl ((Finset.mem_sort _).mp hv)
          · exact Or.inr h2
      · rw [if_neg hv] at hw
        have hmem2 := delCand_mem hw
        rcases h w hmem2.1 with hG | hmem
        · exact Or.inl hG
        · rcases List.mem_cons.mp hmem with rfl | h2
          · exact absurd rfl hmem2.2
          · exact Or.inr h2

theorem cellfold_subset (G : Finset Nat) :
    ∀ (l : List (Nat × Nat)) (acc : GState × Bool) (p : Nat × Nat), p ∈ l →
      (((l.foldl (fun acc p => (setToList (acc.1.cands p.1 p.2)).foldl
          (fun acc2 v => if v ∈ G.sort (· ≤ ·) then acc2
            else delCand acc2 p.1 p.2 v) acc) acc)).1.cands p.1 p.2) ⊆ G := by
  intro l
  induction l with
  | nil => intro acc p hp; exact absurd hp (List.not_mem_nil p)
  | cons q qs ih =>
      intro acc p hp
      rw [List.foldl_cons]
      rcases List.mem_cons.mp hp with rfl | hp2
      · have h1 : ((setToList (acc.1.cands p.1 p.2)).foldl
            (fun acc2 v => if v ∈ G.sort (· ≤ ·) then acc2
              else delCand acc2 p.1 p.2 v) acc).1.cands p.1 p.2 ⊆ G :=
          inner_fold_subset G p _ acc
            (fun w hw => Or.inr ((Finset.mem_sort _).mpr hw))
        refine Finset.Subset.trans ?_ h1
        refine foldl_candsLE _ ?_ qs _ p.1 p.2
        intro a q2
        apply foldl_candsLE
        intro a2 v2
        split
        · exact candsLE_refl _
        · exact candsLE_delCand _ _ _ _
      · exact ih _ p hp2

theorem findHiddenSubset_skip {st : GState} {unit : List (Nat × Nat)} {size : Nat}
    (h : ((digits.filterMap fun m =>
        if 2 ≤ (unit.filter fun p => m ∈ st.cands p.1 p.2).length ∧
            (unit.filter fun p => m ∈ st.cands p.1 p.2).length ≤ size then
          some (m, unit.filter fun p => m ∈ st.cands p.1 p.2)
        else none).map (·.1)).length < size) :
    findHiddenSubset st unit size = (st, false) := by
  unfold findHiddenSubset
  dsimp only
  rw [if_pos h]

theorem foldl_flag_of_change {β : Type} (f : GState × Bool → β → GState × Bool)
    (hmono : ∀ acc x, acc.2 = true → (f acc x).2 = true)
    (hunch : ∀ acc x, (f acc x).2 = false → f acc x = acc)
    (l : List β) (st : GState) (r c v : Nat) (G : Finset Nat)
    (hv : v ∈ st.cands r c) (hvG : v ∉ G)
    (hsub : (l.foldl f (st, false)).1.cands r c ⊆ G) :
    (l.foldl f (st, false)).2 = true := by
  cases hb : (l.foldl f (st, false)).2
  · rw [foldl_unchanged f hmono hunch l (st, false) hb] at hsub
    exact absurd (hsub hv) hvG
  · rfl

/-- **C9 (amended).** For a single `findHiddenSubset(cands, unit, k)` call
with k = 2 or k = 3: for every group `G` of k digits whose members each
occur in at least 2 and at most k cells of the unit, and whose occurrence
cells together span exactly k cells, the call restricts those k cells'
candidate sets to subsets of `G`, and reports progress whenever one of
those cells held a candidate outside `G`.  (As stated over
`applyHiddenSubsets` the claim is false — see the counterexample: groups
with a digit occurring in fewer than 2 cells of the unit are skipped by
the code.) -/
theorem c9_hidden_subset_restricts
    (st : GState) (unit : List (Nat × Nat)) (k : Nat) (G : Finset Nat)
    (hk : k = 2 ∨ k = 3)
    (hGd : ∀ n ∈ G, n ∈ digits)
    (hGcard : G.card = k)
    (hocc : ∀ n ∈ G, 2 ≤ (unit.filter fun p => n ∈ st.cands p.1 p.2).length ∧
        (unit.filter fun p => n ∈ st.cands p.1 p.2).length ≤ k)
    (hS : (dedupList ((G.sort (· ≤ ·)).flatMap fun n =>
        unit.filter fun p => n ∈ st.cands p.1 p.2)).length = k) :
    (∀ p ∈ dedupList ((G.sort (· ≤ ·)).flatMap fun n =>
        unit.filter fun p => n ∈ st.cands p.1 p.2),
      (findHiddenSubset st unit k).1.cands p.1 p.2 ⊆ G) ∧
    ((∃ p ∈ dedupList ((G.sort (· ≤ ·)).flatMap fun n =>
        unit.filter fun p => n ∈ st.cands p.1 p.2),
       ∃ v ∈ st.cands p.1 p.2, v ∉ G) →
      (findHiddenSubset st unit k).2 = true) := by
  have hkeys : ((digits.filterMap fun m =>
        if 2 ≤ (unit.filter fun p => m ∈ st.cands p.1 p.2).length ∧
            (unit.filter fun p => m ∈ st.cands p.1 p.2).length ≤ k then
          some (m, unit.filter fun p => m ∈ st.cands p.1 p.2)
        else none).map (·.1)) =
      digits.filter fun m =>
        2 ≤ (unit.filter fun p => m ∈ st.cands p.1 p.2).length ∧
          (unit.filter fun p => m ∈ st.cands p.1 p.2).length ≤ k :=
    map_fst_filterMap_guard _ _ digits
  have hsubl : (G.sort (· ≤ ·)).Sublist ((digits.filterMap fun m =>
      if 2 ≤ (unit.filter fun p => m ∈ st.cands p.1 p.2).length ∧
          (unit.filter fun p => m ∈ st.cands p.1 p.2).length ≤ k then
        some (m, unit.filter fun p => m ∈ st.cands p.1 p.2)
      else none).map (·.1)) := by
    rw [hkeys]
    apply sorted_subset_sublist
    · exact Finset.sort_sorted_lt G
    · exact List.Pairwise.filter _ (by decide : digits.Sorted (· < ·))
    · intro x hx
      have hxG := (Finset.mem_sort _).mp hx
      rw [List.mem_filter]
      exact ⟨hGd x hxG, decide_eq_true (hocc x hxG)⟩
  have hlen : (G.sort (· ≤ ·)).length = k := by
    rw [Finset.length_sort]
    exact hGcard
  have hmemc : (G.sort (· ≤ ·)) ∈ combinations ((digits.filterMap fun m =>
      if 2 ≤ (unit.filter fun p => m ∈ st.cands p.1 p.2).length ∧
          (unit.filter fun p => m ∈ st.cands p.1 p.2).length ≤ k then
        some (m, unit.filter fun p => m ∈ st.cands p.1 p.2)
      else none).map (·.1)) k := by
    have h := sublist_mem_combinations hsubl
    rwa [hlen] at h
  have hknotlt : ¬ ((digits.filterMap fun m =>
      if 2 ≤ (unit.filter fun p => m ∈ st.cands p.1 p.2).length ∧
          (unit.filter fun p => m ∈ st.cands p.1 p.2).length ≤ k then
        some (m, unit.filter fun p => m ∈ st.cands p.1 p.2)
      else none).map (·.1)).length < k := by
    apply not_lt.mpr
    calc k = (G.sort (· ≤ ·)).length := hlen.symm
    _ ≤ _ := hsubl.length_le
  have hcells : ∀ n ∈ G.sort (· ≤ ·),
      ((((digits.filterMap fun m =>
          if 2 ≤ (unit.filter fun p => m ∈ st.cands p.1 p.2).length ∧
              (unit.filter fun p => m ∈ st.cands p.1 p.2).length ≤ k then
            some (m, unit.filter fun p => m ∈ st.cands p.1 p.2)
          else none).find? fun e => e.1 = n).map (·.2)).getD []) =
        unit.filter fun p => n ∈ st.cands p.1 p.2 := by
    intro n hn
    have hnG := (Finset.mem_sort _).mp hn
    rw [show ((digits.filterMap fun m =>
        if 2 ≤ (unit.filter fun p => m ∈ st.cands p.1 p.2).length ∧
            (unit.filter fun p => m ∈ st.cands p.1 p.2).length ≤ k then
          some (m, unit.filter fun p => m ∈ st.cands p.1 p.2)
        else none).find? fun e => e.1 = n) =
      some (n, unit.filter fun p => n ∈ st.cands p.1 p.2) from
      find?_filterMap_guard _ _ digits n (hGd n hnG) (hocc n hnG)]
    rfl
  have hcellSet : dedupList ((G.sort (· ≤ ·)).flatMap fun n =>
      ((((digits.filterMap fun m =>
          if 2 ≤ (unit.filter fun p => m ∈ st.cands p.1 p.2).length ∧
              (unit.filter fun p => m ∈ st.cands p.1 p.2).length ≤ k then
            some (m, unit.filter fun p => m ∈ st.cands p.1 p.2)
          else none).find? fun e => e.1 = n).map (·.2)).getD [])) =
      dedupList ((G.sort (· ≤ ·)).flatMap fun n =>
        unit.filter fun p => n ∈ st.cands p.1 p.2) :=
    congrArg dedupList (flatMap_congr _ _ _ hcells)
  unfold findHiddenSubset
  dsimp only
  rw [if_neg hknotlt]
  obtain ⟨pre, post, hsplitc⟩ := List.append_of_mem hmemc
  constructor
  · intro p hp
    rw [hsplitc, List.foldl_append, List.foldl_cons]
    refine Finset.Subset.trans (foldl_candsLE _ ?_ post _ p.1 p.2) ?_
    · intro a combo
      dsimp only
      split
      · apply foldl_candsLE
        intro a2 q
        apply foldl_candsLE
        intro a3 v2
        split
        · exact candsLE_refl _
        · exact candsLE_delCand _ _ _ _
      · exact candsLE_refl _
    · dsimp only
      rw [hcellSet, if_pos hS]
      exact cellfold_subset G _ _ p hp
  · rintro ⟨p, hp, v, hv, hvG⟩
    refine foldl_flag_of_change _ ?_ ?_ _ _ p.1 p.2 v G hv hvG ?_
    · intro a combo hflag
      dsimp only
      split
      · apply foldl_flag_mono
        · intro a2 q hq
          apply foldl_flag_mono
          · intro a3 v2 hv2
            split
            · exact hv2
            · exact delCand_flag_mono _ _ _ _ hv2
          · exact hq
        · exact hflag
      · exact hflag
    · intro a combo
      dsimp only
      split
      · apply foldl_unchanged
        · intro a2 q hq
          apply foldl_flag_mono
          · intro a3 v2 hv2
            split
            · exact hv2
            · exact delCand_flag_mono _ _ _ _ hv2
          · exact hq
        · intro a2 q
          dsimp only
          apply foldl_unchanged
          · intro a3 v2 hv3
            split
            · exact hv3
            · exact delCand_flag_mono _ _ _ _ hv3
          · intro a3 v2
            split
            · intro _
              rfl
            · exact delCand_unchanged _ _ _ _
      · intro _
        rfl
    · rw [hsplitc, List.foldl_append, List.foldl_cons]
      refine Finset.Subset.trans (foldl_candsLE _ ?_ post _ p.1 p.2) ?_
      · intro a combo
        dsimp only
        split
        · apply foldl_candsLE
          intro a2 q
          apply foldl_candsLE
          intro a3 v2
          split
          · exact candsLE_refl _
          · exact candsLE_delCand _ _ _ _
        · exact candsLE_refl _
      · dsimp only
        rw [hcellSet, if_pos hS]
        exact cellfold_subset G _ _ p hp

/-- The state refuting C9 as stated: in row 0, digit 2 occurs only at
(0,0) and digit 3 only at (0,1). -/
def stC9 : GState :=
  { board := fun _ _ => 0,
    cands := fun r c =>
      if r = 0 ∧ c = 0 then {1, 2} else if r = 0 ∧ c = 1 then {1, 3} else ∅ }

/-- **C9 counterexample.** In row 0 of `stC9` the digit group {2, 3} is
confined to exactly the 2 cells (0,0) and (0,1) (digit 2 occurs only at
(0,0), digit 3 only at (0,1)), so the claim requires `applyHiddenSubsets`
to restrict those cells' candidates to {2, 3} and report progress; but
the code skips digits occurring in fewer than 2 cells of the unit, leaves
cell (0,1) at {1, 3} (candidate 1 is not removed) and reports no
progress. -/
theorem c9_counterexample :
    ([(0,0),(0,1),(0,2),(0,3),(0,4),(0,5),(0,6),(0,7),(0,8)].filter
        (fun p => 2 ∈ stC9.cands p.1 p.2) = [(0, 0)]) ∧
    ([(0,0),(0,1),(0,2),(0,3),(0,4),(0,5),(0,6),(0,7),(0,8)].filter
        (fun p => 3 ∈ stC9.cands p.1 p.2) = [(0, 1)]) ∧
    (applyHiddenSubsets stC9).1.cands 0 1 = {1, 3} ∧
    (applyHiddenSubsets stC9).2 = false := by
  have hsk2 : ∀ u ∈ getUnits, ((digits.filterMap fun m =>
      if 2 ≤ (u.filter fun p => m ∈ stC9.cands p.1 p.2).length ∧
          (u.filter fun p => m ∈ stC9.cands p.1 p.2).length ≤ 2 then
        some (m, u.filter fun p => m ∈ stC9.cands p.1 p.2)
      else none).map (·.1)).length < 2 := by decide
  have hsk3 : ∀ u ∈ getUnits, ((digits.filterMap fun m =>
      if 2 ≤ (u.filter fun p => m ∈ stC9.cands p.1 p.2).length ∧
          (u.filter fun p => m ∈ stC9.cands p.1 p.2).length ≤ 3 then
        some (m, u.filter fun p => m ∈ stC9.cands p.1 p.2)
      else none).map (·.1)).length < 3 := by decide
  have hfix : applyHiddenSubsets stC9 = (stC9, false) := by
    unfold applyHiddenSubsets
    refine foldl_fixed _ (fun a => a = (stC9, false)) getUnits ?_ _ rfl
    intro a u hu ha
    subst ha
    dsimp only
    rw [findHiddenSubset_skip (hsk2 u hu)]
    dsimp only
    rw [findHiddenSubset_skip (hsk3 u hu)]
    rfl
  refine ⟨by decide, by decide, ?_, ?_⟩
  · rw [hfix]
    decide
  · rw [hfix]

/-- Witness state: a genuine hidden pair {1, 2} in row 0. -/
def stW9 : GState :=
  { board := emptyBoard,
    cands := fun r c =>
      if r = 0 ∧ c = 0 then {1, 2} else if r = 0 ∧ c = 1 then {1, 2, 3} else ∅ }

theorem sort_pair_12 : ({1, 2} : Finset Nat).sort (· ≤ ·) = [1, 2] := by
  apply List.Sublist.antisymm
  · apply sorted_subset_sublist
    · exact Finset.sort_sorted_lt _
    · decide
    · intro x hx
      have hx2 := (Finset.mem_sort _).mp hx
      simp only [Finset.mem_insert, Finset.mem_singleton] at hx2
      rcases hx2 with rfl | rfl
      · exact List.mem_cons_self _ _
      · exact List.mem_cons_of_mem _ (List.mem_cons_self _ _)
  · apply sorted_subset_sublist
    · decide
    · exact Finset.sort_sorted_lt _
    · intro x hx
      apply (Finset.mem_sort _).mpr
      rcases List.mem_cons.mp hx with rfl | hx2
      · exact Finset.mem_insert_self _ _
      · rcases List.mem_cons.mp hx2 with rfl | hx3
        · exact Finset.mem_insert_of_mem (Finset.mem_singleton_self _)
        · exact absurd hx3 (List.not_mem_nil _)

/-- Witness for C9 at a concrete state: the hidden pair {1, 2} over
cells (0,0), (0,1) of row 0 gets both cells restricted to {1, 2}. -/
theorem c9_hidden_subset_restricts_witness :
    (2 = 2 ∨ 2 = 3) ∧ ({1, 2} : Finset Nat).card = 2 ∧
    (∀ p ∈ dedupList ((({1, 2} : Finset Nat).sort (· ≤ ·)).flatMap fun n =>
        [(0,0),(0,1),(0,2),(0,3),(0,4),(0,5),(0,6),(0,7),(0,8)].filter
          fun p => n ∈ stW9.cands p.1 p.2),
      (findHiddenSubset stW9
        [(0,0),(0,1),(0,2),(0,3),(0,4),(0,5),(0,6),(0,7),(0,8)] 2).1.cands p.1 p.2 ⊆
        ({1, 2} : Finset Nat)) :=
  ⟨Or.inl rfl, by decide,
    (c9_hidden_subset_restricts stW9
      [(0,0),(0,1),(0,2),(0,3),(0,4),(0,5),(0,6),(0,7),(0,8)] 2 {1, 2}
      (Or.inl rfl) (by decide) (by decide) (by decide)
      (by rw [sort_pair_12]; decide)).1⟩


end Sudoku
